import Mathlib

/-!
# Verification of `folder_updater.py`

A shallow embedding of the directory-level sync tool in `src/folder_updater.py`
and proofs about it.

Modelling conventions:

* A filesystem tree is a value: `SrcDir` for the source tree (directory
  modification times and regular files with sizes), `TgtDir` for the target
  tree (file names and subdirectories).  The tree is the ground truth of the
  filesystem, so metadata reads (`stat`, `iterdir`, `os.walk`) always succeed.
  Mutating operations (`mkdir`, `shutil.copy2`, `unlink`, `rmdir`) may fail in
  the Python code and are caught per item; failures are modelled by an
  injected environment `FsEnv` mapping target-relative paths to failure flags.
* Timestamps (`datetime` values) are modelled as `Int`, ordered as datetimes
  are; the epoch `datetime.fromtimestamp(0)` is `0`.
* Target directory timestamps are write-only in the code (`os.utime` is called
  but no target mtime is ever read), so the target tree does not carry mtimes
  and the `os.utime` calls have no observable effect in the model.
* Paths are relative paths from the configured root, as lists of components
  (`RPath`).  Python's `Path('.')` (the root itself) is `[]`.
* `logging` and `time.sleep` calls have no observable effect and are omitted.
* The run statistics dictionary `self.stats` is threaded explicitly as a
  `Stats` value; `sync_configuration` resets it to zero as line 142 does.
-/

/-- A path relative to a configured root directory, as a list of components.
`[]` is the root itself (Python `Path('.')`). -/
abbrev RPath := List String

/-- A regular file in the source tree: its name and its size in bytes
(`item.stat().st_size`). -/
structure SrcFile where
  name : String
  size : Nat
deriving Repr, DecidableEq

/-- A directory of the source tree: its modification time
(`dir.stat().st_mtime`), the regular files directly inside it, and its named
subdirectories. -/
inductive SrcDir : Type where
  | mk : Int → List SrcFile → List (String × SrcDir) → SrcDir

/-- The directory's modification time. -/
def SrcDir.mtime : SrcDir → Int
  | .mk m _ _ => m

/-- The regular files directly inside the directory. -/
def SrcDir.files : SrcDir → List SrcFile
  | .mk _ fs _ => fs

/-- The named subdirectories of the directory. -/
def SrcDir.subdirs : SrcDir → List (String × SrcDir)
  | .mk _ _ sd => sd

mutual

/-- `os.walk(source)` with its default top-down order: the directory itself
first, then each subdirectory's subtree, in listing order.  Each visited
directory is returned with its path relative to the walk root. -/
def SrcDir.walk : SrcDir → RPath → List (RPath × SrcDir)
  | .mk m fs sd, p => (p, .mk m fs sd) :: SrcDir.walkList sd p

/-- Walks a list of named subdirectories in order (helper for `SrcDir.walk`). -/
def SrcDir.walkList : List (String × SrcDir) → RPath → List (RPath × SrcDir)
  | [], _ => []
  | (n, c) :: rest, p => SrcDir.walk c (p ++ [n]) ++ SrcDir.walkList rest p

end

mutual

/-- Real filesystems cannot hold two sibling entries with the same name; trees
fed to the model are assumed to satisfy this. -/
def SrcDir.nodupNames : SrcDir → Bool
  | .mk _ _ sd => decide ((sd.map Prod.fst).Nodup) && SrcDir.nodupNamesList sd

/-- `SrcDir.nodupNames` for each tree of a subdirectory list. -/
def SrcDir.nodupNamesList : List (String × SrcDir) → Bool
  | [] => true
  | (_, c) :: rest => SrcDir.nodupNames c && SrcDir.nodupNamesList rest

end

/-- `strictUnder a b` holds when `b` is strictly below `a` in the tree of
paths, i.e. `a` is a proper ancestor of `b`. -/
def strictUnder (a b : RPath) : Bool :=
  decide (a.length < b.length) && decide (b.take a.length = a)

/-- The set `source_dirs` built by `_cleanup_target` (lines 392-396): the
relative path of every directory below the source root, the root itself
excluded. -/
def sourceDirsOf (S : SrcDir) : List RPath :=
  ((S.walk []).map Prod.fst).filter (fun p => !p.isEmpty)

/-- The set `source_files` built by `_cleanup_target` (lines 398-403): the
relative path of every regular file under the source root (for the root, just
the file name, as the Python `rel_root == Path('.')` branch does). -/
def sourceFilesOf (S : SrcDir) : List RPath :=
  (S.walk []).flatMap (fun x => x.2.files.map (fun f => x.1 ++ [f.name]))

/-- The run statistics dictionary `self.stats` (lines 104-112). -/
structure Stats where
  dirs_scanned : Nat
  dirs_changed : Nat
  files_synced : Nat
  files_deleted : Nat
  dirs_deleted : Nat
  bytes_synced : Nat
  errors : Nat
deriving Repr, DecidableEq

/-- The reset statistics (lines 104-112 and the reset at line 142). -/
def Stats.zero : Stats := ⟨0, 0, 0, 0, 0, 0, 0⟩

/-- Failure injection for the mutating filesystem operations of the target
tree.  Each field tells whether the operation on the given target-relative
path raises (the Python code catches such exceptions per item).  Reads of the
source tree are the model's ground truth and always succeed. -/
structure FsEnv where
  mkdirFails : RPath → Bool
  copyFails : RPath → Bool
  unlinkFails : RPath → Bool
  rmdirFails : RPath → Bool

/-- The environment where no filesystem operation fails. -/
def FsEnv.clean : FsEnv :=
  ⟨fun _ => false, fun _ => false, fun _ => false, fun _ => false⟩

/-- A directory of the target tree: the names of the regular files directly
inside it and its named subdirectories.  (No mtime: target mtimes are
write-only in the code.) -/
inductive TgtDir : Type where
  | mk : List String → List (String × TgtDir) → TgtDir

/-- The file names directly inside the directory. -/
def TgtDir.files : TgtDir → List String
  | .mk fs _ => fs

/-- The named subdirectories. -/
def TgtDir.subdirs : TgtDir → List (String × TgtDir)
  | .mk _ sd => sd

/-- An empty directory. -/
def TgtDir.nil : TgtDir := .mk [] []

/-- Looks up an immediate subdirectory by name. -/
def TgtDir.child? (t : TgtDir) (n : String) : Option TgtDir :=
  match t.subdirs.find? (fun c => c.1 == n) with
  | some c => some c.2
  | none => none

/-- Replaces the subdirectory named `n` (every occurrence, though well-formed
trees have at most one), or appends it if absent. -/
def TgtDir.setChild : TgtDir → String → TgtDir → TgtDir
  | .mk fs sd, n, c =>
    if sd.any (fun x => x.1 == n) then
      .mk fs (sd.map (fun x => if x.1 == n then (x.1, c) else x))
    else
      .mk fs (sd ++ [(n, c)])

/-- `path.mkdir(parents=True, exist_ok=True)`: creates the directory at the
given relative path together with any missing intermediate directories. -/
def TgtDir.mkdirP : TgtDir → RPath → TgtDir
  | t, [] => t
  | t, n :: rest => t.setChild n (((t.child? n).getD TgtDir.nil).mkdirP rest)

/-- `shutil.copy2(item, dir/name)`: places the file `name` into the directory
at the given relative path (overwriting keeps a single entry).  If the
directory is missing the copy raises and is caught by the caller; every call
in this model is preceded by `mkdirP`, so that branch keeps the tree
unchanged. -/
def TgtDir.insertFile : TgtDir → RPath → String → TgtDir
  | .mk fs sd, [], name => .mk (if name ∈ fs then fs else fs ++ [name]) sd
  | t, n :: rest, name =>
    match t.child? n with
    | some c => t.setChild n (c.insertFile rest name)
    | none => t

/-- Whether a regular file exists at the given relative path. -/
def TgtDir.fileMem : TgtDir → RPath → Bool
  | _, [] => false
  | t, [n] => t.files.contains n
  | t, n :: rest =>
    match t.child? n with
    | some c => c.fileMem rest
    | none => false

/-- Whether a directory exists at the given relative path (the root always
does). -/
def TgtDir.dirMem : TgtDir → RPath → Bool
  | _, [] => true
  | t, n :: rest =>
    match t.child? n with
    | some c => c.dirMem rest
    | none => false

/-- The subtree rooted at the given relative path, when present. -/
def TgtDir.subtreeAt : TgtDir → RPath → Option TgtDir
  | t, [] => some t
  | t, n :: rest =>
    match t.child? n with
    | some c => c.subtreeAt rest
    | none => none

/-- `not any(dir_path.iterdir())` (line 431): the directory holds no file and
no subdirectory. -/
def TgtDir.isEmptyNode : TgtDir → Bool
  | .mk fs sd => fs.isEmpty && sd.isEmpty

mutual

/-- Sibling names are distinct everywhere in the target tree. -/
def TgtDir.nodupNames : TgtDir → Bool
  | .mk _ sd => decide ((sd.map Prod.fst).Nodup) && TgtDir.nodupNamesList sd

/-- `TgtDir.nodupNames` for each tree of a subdirectory list. -/
def TgtDir.nodupNamesList : List (String × TgtDir) → Bool
  | [] => true
  | (_, c) :: rest => TgtDir.nodupNames c && TgtDir.nodupNamesList rest

end

mutual

/-- Every file anywhere in the tree (rooted at relative path `rp`) has its
relative path in `sfiles`.  Specification-side predicate used to state the
reconciliation postconditions. -/
def TgtDir.filesBelowIn (sfiles : List RPath) : TgtDir → RPath → Bool
  | .mk fs sd, rp =>
    fs.all (fun n => decide ((rp ++ [n]) ∈ sfiles)) &&
      TgtDir.filesBelowInList sfiles sd rp

/-- `TgtDir.filesBelowIn` over a subdirectory list. -/
def TgtDir.filesBelowInList (sfiles : List RPath) :
    List (String × TgtDir) → RPath → Bool
  | [], _ => true
  | (n, c) :: rest, rp =>
    TgtDir.filesBelowIn sfiles c (rp ++ [n]) &&
      TgtDir.filesBelowInList sfiles rest rp

end

mutual

/-- Every directory strictly below the tree root (at relative path `rp`) has
its relative path in `sdirs`.  Specification-side predicate used to state the
reconciliation postconditions. -/
def TgtDir.dirsBelowIn (sdirs : List RPath) : TgtDir → RPath → Bool
  | .mk _ sd, rp =>
    sd.all (fun c => decide ((rp ++ [c.1]) ∈ sdirs)) &&
      TgtDir.dirsBelowInList sdirs sd rp

/-- `TgtDir.dirsBelowIn` over a subdirectory list. -/
def TgtDir.dirsBelowInList (sdirs : List RPath) :
    List (String × TgtDir) → RPath → Bool
  | [], _ => true
  | (n, c) :: rest, rp =>
    TgtDir.dirsBelowIn sdirs c (rp ++ [n]) &&
      TgtDir.dirsBelowInList sdirs rest rp

end

mutual

/-- The tree holds no file anywhere.  Specification-side predicate. -/
def TgtDir.noFiles : TgtDir → Bool
  | .mk fs sd => fs.isEmpty && TgtDir.noFilesList sd

/-- `TgtDir.noFiles` over a subdirectory list. -/
def TgtDir.noFilesList : List (String × TgtDir) → Bool
  | [] => true
  | (_, c) :: rest => TgtDir.noFiles c && TgtDir.noFilesList rest

end

/-- `FolderUpdater._sync_root_files` (lines 264-293): ensures the target root
exists, copies every regular file directly inside the source root into it
(each failed copy is logged and counted), then restores the root timestamp
(untracked here). -/
def sync_root_files (env : FsEnv) (S : SrcDir) (T : TgtDir) (st : Stats) :
    TgtDir × Stats :=
  S.files.foldl
    (fun acc f =>
      if env.copyFails [f.name] then
        (acc.1, { acc.2 with errors := acc.2.errors + 1 })
      else
        (acc.1.insertFile [] f.name,
         { acc.2 with
             files_synced := acc.2.files_synced + 1
             bytes_synced := acc.2.bytes_synced + f.size }))
    (T, st)

/-- The loop body of `_scan_changed_directories` (lines 310-328): every walked
directory is counted as scanned; the root is skipped; any other directory
whose mtime is strictly newer than `since` is appended to the result and
counted as changed. -/
def scanLoop (since : Int) : List (RPath × SrcDir) → Stats → List (RPath × SrcDir) × Stats
  | [], st => ([], st)
  | (p, d) :: rest, st =>
    if p = [] then
      scanLoop since rest { st with dirs_scanned := st.dirs_scanned + 1 }
    else
      let st1 := { st with dirs_scanned := st.dirs_scanned + 1 }
      if since < d.mtime then
        let r := scanLoop since rest { st1 with dirs_changed := st1.dirs_changed + 1 }
        ((p, d) :: r.1, r.2)
      else
        scanLoop since rest st1

/-- `FolderUpdater._scan_changed_directories` (lines 295-330). -/
def scan_changed_directories (S : SrcDir) (since : Int) (st : Stats) :
    List (RPath × SrcDir) × Stats :=
  scanLoop since (S.walk []) st

/-- The changed-directory list a scan returns (its value does not depend on
the statistics threaded through). -/
def changedOf (S : SrcDir) (since : Int) : List (RPath × SrcDir) :=
  (scan_changed_directories S since Stats.zero).1

/-- `FolderUpdater._sync_directory` (lines 332-375): creates the mirrored
directory (a creation failure aborts only this directory), copies every
regular file directly inside the source directory (failed copies are counted
and skipped), then restores the directory timestamp (untracked here).
`rel` is the path of the directory relative to the roots, `d` its source
subtree. -/
def sync_directory (env : FsEnv) (T : TgtDir) (rel : RPath) (d : SrcDir) (st : Stats) :
    TgtDir × Stats :=
  if env.mkdirFails rel then
    (T, { st with errors := st.errors + 1 })
  else
    d.files.foldl
      (fun acc f =>
        if env.copyFails (rel ++ [f.name]) then
          (acc.1, { acc.2 with errors := acc.2.errors + 1 })
        else
          (acc.1.insertFile rel f.name,
           { acc.2 with
               files_synced := acc.2.files_synced + 1
               bytes_synced := acc.2.bytes_synced + f.size }))
      (T.mkdirP rel, st)

/-- The mutable state of the mirroring loop of `sync_configuration`
(lines 204-236): the newest-synced timestamp, the target tree, the run
statistics, and the trace of checkpoint values written to the state manager. -/
structure LoopState where
  newest : Int
  target : TgtDir
  stats : Stats
  checkpoints : List Int

/-- The mirroring loop of `sync_configuration` (lines 204-236): for each
changed directory, mirror it, then raise the newest-synced timestamp to its
mtime when that is larger (the re-`stat` of the source directory at line 209
reads the same frozen source tree), and every 50 directories persist the
current newest-synced value as a checkpoint.  `i` is the 1-based index of the
next directory. -/
def syncLoop (env : FsEnv) : List (RPath × SrcDir) → Nat → LoopState → LoopState
  | [], _, ls => ls
  | (p, d) :: rest, i, ls =>
    let r := sync_directory env ls.target p d ls.stats
    let newest1 := if d.mtime > ls.newest then d.mtime else ls.newest
    let cps1 := if i % 50 = 0 then ls.checkpoints ++ [newest1] else ls.checkpoints
    syncLoop env rest (i + 1) ⟨newest1, r.1, r.2, cps1⟩

/-- The per-file loop of the file-deletion phase of `_cleanup_target`
(lines 408-422) at one visited target directory `rp`: a file whose relative
path is absent from `source_files` is unlinked (a failed unlink keeps it and
counts an error); files present in `source_files` are never touched. -/
def removeFilesAt (env : FsEnv) (srcFiles : List RPath) (rp : RPath) :
    List String → Stats → List String × Stats
  | [], st => ([], st)
  | n :: rest, st =>
    if (rp ++ [n]) ∈ srcFiles then
      let r := removeFilesAt env srcFiles rp rest st
      (n :: r.1, r.2)
    else if env.unlinkFails (rp ++ [n]) then
      let r := removeFilesAt env srcFiles rp rest { st with errors := st.errors + 1 }
      (n :: r.1, r.2)
    else
      removeFilesAt env srcFiles rp rest { st with files_deleted := st.files_deleted + 1 }

mutual

/-- The file-deletion phase of `_cleanup_target` (lines 405-422): walks the
target tree top-down and deletes every file whose relative path is not in
`source_files`. -/
def cleanup_files (env : FsEnv) (srcFiles : List RPath) :
    TgtDir → RPath → Stats → TgtDir × Stats
  | .mk fs sd, rp, st =>
    let r1 := removeFilesAt env srcFiles rp fs st
    let r2 := cleanup_files_list env srcFiles sd rp r1.2
    (.mk r1.1 r2.1, r2.2)

/-- The file-deletion phase over a subdirectory list, in listing order. -/
def cleanup_files_list (env : FsEnv) (srcFiles : List RPath) :
    List (String × TgtDir) → RPath → Stats → List (String × TgtDir) × Stats
  | [], _, st => ([], st)
  | (n, c) :: rest, rp, st =>
    let r1 := cleanup_files env srcFiles c (rp ++ [n]) st
    let r2 := cleanup_files_list env srcFiles rest rp r1.2
    ((n, r1.1) :: r2.1, r2.2)

end

/-- The candidate loop run at one visited directory of the bottom-up walk of
`_cleanup_target` (lines 425-437): each immediate subdirectory whose relative
path is not in `source_dirs` and which is empty is removed (a failed `rmdir`
keeps it and counts an error); subdirectories in `source_dirs`, and non-empty
ones, are kept. -/
def check_children (env : FsEnv) (srcDirs : List RPath) (rp : RPath) :
    List (String × TgtDir) → Stats → List (String × TgtDir) × Stats
  | [], st => ([], st)
  | (n, c) :: rest, st =>
    if (rp ++ [n]) ∈ srcDirs then
      let r := check_children env srcDirs rp rest st
      ((n, c) :: r.1, r.2)
    else if c.isEmptyNode then
      if env.rmdirFails (rp ++ [n]) then
        let r := check_children env srcDirs rp rest { st with errors := st.errors + 1 }
        ((n, c) :: r.1, r.2)
      else
        check_children env srcDirs rp rest { st with dirs_deleted := st.dirs_deleted + 1 }
    else
      let r := check_children env srcDirs rp rest st
      ((n, c) :: r.1, r.2)

mutual

/-- The directory-deletion phase of `_cleanup_target` (lines 424-437), i.e.
`os.walk(target, topdown=False)`: all subtrees are processed bottom-up first
(each visited descendant runs its own candidate loop), and the candidate loop
for this directory's own children runs last. -/
def cleanup_dirs (env : FsEnv) (srcDirs : List RPath) :
    TgtDir → RPath → Stats → TgtDir × Stats
  | .mk fs sd, rp, st =>
    let r1 := cleanup_dirs_list env srcDirs sd rp st
    let r2 := check_children env srcDirs rp r1.1 r1.2
    (.mk fs r2.1, r2.2)

/-- The directory-deletion phase over a subdirectory list, in listing order. -/
def cleanup_dirs_list (env : FsEnv) (srcDirs : List RPath) :
    List (String × TgtDir) → RPath → Stats → List (String × TgtDir) × Stats
  | [], _, st => ([], st)
  | (n, c) :: rest, rp, st =>
    let r1 := cleanup_dirs env srcDirs c (rp ++ [n]) st
    let r2 := cleanup_dirs_list env srcDirs rest rp r1.2
    ((n, r1.1) :: r2.1, r2.2)

end

mutual

/-- The order in which directories are considered for deletion by the
bottom-up walk at lines 424-427: at each visited directory (deepest first, in
listing order) the candidates are its immediate subdirectories, so every
directory's descendants are considered before the directory itself. -/
def cleanupVisitOrder : TgtDir → RPath → List RPath
  | .mk _ sd, rp => cleanupVisitOrderList sd rp ++ sd.map (fun c => rp ++ [c.1])

/-- `cleanupVisitOrder` over a subdirectory list, in listing order. -/
def cleanupVisitOrderList : List (String × TgtDir) → RPath → List RPath
  | [], _ => []
  | (n, c) :: rest, rp => cleanupVisitOrder c (rp ++ [n]) ++ cleanupVisitOrderList rest rp

end

/-- `FolderUpdater._cleanup_target` (lines 377-437): builds the source file
and directory sets, deletes target files absent from the source file set, then
removes empty target directories absent from the source directory set,
bottom-up.  (The `target.exists()` guard at line 384 is outside the model:
the target root exists whenever this runs, having been created by
`_sync_root_files`.) -/
def cleanup_target (env : FsEnv) (S : SrcDir) (T : TgtDir) (st : Stats) :
    TgtDir × Stats :=
  let r1 := cleanup_files env (sourceFilesOf S) T [] st
  cleanup_dirs env (sourceDirsOf S) r1.1 [] r1.2

/-- The outcome of `sync_configuration` for one configuration: the returned
success flag and newest-synced timestamp (line 124), plus the final target
tree, the run statistics, and the trace of checkpoint values written to the
state manager by the loop (line 230). -/
structure SyncResult where
  success : Bool
  newest : Int
  target : TgtDir
  stats : Stats
  checkpoints : List Int

/-- The tail of a completed (uninterrupted) run (lines 240-248): cleanup, then
return success with the accumulated newest-synced timestamp. -/
def syncFinish (env : FsEnv) (S : SrcDir) (ls : LoopState) : SyncResult :=
  let r := cleanup_target env S ls.target ls.stats
  ⟨true, ls.newest, r.1, r.2, ls.checkpoints⟩

/-- `FolderUpdater.sync_configuration` (lines 114-262) for an existing source.

`interrupt = some k` models a user cancellation (`KeyboardInterrupt`) that
arrives at the first observation point after `k` changed directories have been
fully mirrored — the code observes cancellation between directories of the
mirroring loop; the handler at lines 250-256 returns the newest-synced
timestamp accumulated so far, with no cleanup.  If fewer than `k` directories
are to be mirrored the signal never arrives and the run completes
(`interrupt = none` never interrupts). -/
def sync_configuration (env : FsEnv) (S : SrcDir) (T : TgtDir) (last_sync : Int)
    (interrupt : Option Nat) : SyncResult :=
  let r0 := sync_root_files env S T Stats.zero
  let r1 := scan_changed_directories S last_sync r0.2
  let changed := r1.1
  if changed.length = 0 then
    let r2 := cleanup_target env S r0.1 r1.2
    ⟨true, last_sync, r2.1, r2.2, []⟩
  else
    match interrupt with
    | some k =>
      if k ≤ changed.length then
        let ls := syncLoop env (changed.take k) 1 ⟨last_sync, r0.1, r1.2, []⟩
        ⟨false, ls.newest, ls.target, ls.stats, ls.checkpoints⟩
      else
        syncFinish env S (syncLoop env changed 1 ⟨last_sync, r0.1, r1.2, []⟩)
    | none =>
      syncFinish env S (syncLoop env changed 1 ⟨last_sync, r0.1, r1.2, []⟩)

/-- `StateManager.state.get(name)`: the stored string for a configuration, if
any. -/
def lookupState (state : List (String × String)) (name : String) : Option String :=
  match state.find? (fun kv => kv.1 == name) with
  | some kv => some kv.2
  | none => none

/-- `StateManager.get_last_sync` (lines 74-82): the parsed stored timestamp,
or the epoch when the entry is absent, falsy (empty), or fails to parse
(`datetime.fromisoformat` raising is caught and logged).  `parse` stands for
`datetime.fromisoformat`, returning `none` where the Python function raises. -/
def get_last_sync (parse : String → Option Int) (state : List (String × String))
    (name : String) : Int :=
  match lookupState state name with
  | some s =>
    if s = "" then 0
    else
      match parse s with
      | some t => t
      | none => 0
  | none => 0

/-- The value-level view of the state store used by `main`: configuration
name to timestamp.  (`set_last_sync` stores `timestamp.isoformat()` and
`get_last_sync` applies `datetime.fromisoformat`, which are mutually inverse,
so the orchestration level works with timestamp values directly;
`get_last_sync`'s string handling is modelled separately above.) -/
def getLastSyncV (state : List (String × Int)) (name : String) : Int :=
  match state.find? (fun kv => kv.1 == name) with
  | some kv => kv.2
  | none => 0

/-- `StateManager.set_last_sync` (lines 84-89) at the value level: upserts the
entry for `name`. -/
def setLastSyncV (state : List (String × Int)) (name : String) (t : Int) :
    List (String × Int) :=
  if state.any (fun kv => kv.1 == name) then
    state.map (fun kv => if kv.1 == name then (kv.1, t) else kv)
  else
    state ++ [(name, t)]

/-- The per-run parameters of one run of a configuration: the source tree and
initial target tree at the time of the run, the failure environment, and the
cancellation point, if any. -/
structure SyncJob where
  source : SrcDir
  target : TgtDir
  env : FsEnv
  interrupt : Option Nat

/-- One iteration of `main`'s loop (lines 497-514) for one configuration:
read the stored last-sync value, run `sync_configuration`, and always persist
the returned newest-synced value (line 508), whatever the outcome.  Returns
the updated store and the success flag. -/
def mainStep (state : List (String × Int)) (name : String) (job : SyncJob) :
    List (String × Int) × Bool :=
  let r := sync_configuration job.env job.source job.target (getLastSyncV state name)
    job.interrupt
  (setLastSyncV state name r.newest, r.success)

/-- A sequence of runs of one configuration (successive invocations of
`main`), each reading the store left by the previous one. -/
def mainRunJobs (state : List (String × Int)) (name : String) :
    List SyncJob → List (String × Int)
  | [] => state
  | j :: rest => mainRunJobs (mainStep state name j).1 name rest

/-- `main`'s loop over the configuration list (lines 497-518) within a single
run: every configuration is processed in sequence and tallied as a success or
a failure; a failed or interrupted configuration does not stop the loop. -/
def mainConfigs (state : List (String × Int)) :
    List (String × SyncJob) → List (String × Int) × Nat × Nat
  | [] => (state, 0, 0)
  | (name, j) :: rest =>
    let r := mainStep state name j
    let rr := mainConfigs r.1 rest
    if r.2 then (rr.1, rr.2.1 + 1, rr.2.2) else (rr.1, rr.2.1, rr.2.2 + 1)

/-! ## Basic lemmas about the tree types -/

theorem SrcDir.sizeOf_pos (t : SrcDir) : 0 < sizeOf t := by
  cases t
  simp

theorem TgtDir.sizeOf_pos_tgt (t : TgtDir) : 0 < sizeOf t := by
  cases t
  simp

theorem SrcDir.inductionOn {motive : SrcDir → Prop}
    (h : ∀ m fs sd, (∀ c ∈ sd, motive c.2) → motive (SrcDir.mk m fs sd))
    (t : SrcDir) : motive t := by
  have key : ∀ n t, sizeOf t ≤ n → motive t := by
    intro n
    induction n with
    | zero =>
      intro t ht
      exact absurd ht (by have := SrcDir.sizeOf_pos t; omega)
    | succ n ih =>
      intro t ht
      cases t with
      | mk m fs sd =>
        apply h
        intro c hc
        apply ih
        have h1 : sizeOf c < sizeOf sd := List.sizeOf_lt_of_mem hc
        have h2 : sizeOf c.2 < sizeOf c := by
          cases c with
          | mk a b => simp
        simp at ht
        omega
  exact key (sizeOf t) t (le_refl _)

theorem TgtDir.inductionOn_tgt {motive : TgtDir → Prop}
    (h : ∀ fs sd, (∀ c ∈ sd, motive c.2) → motive (TgtDir.mk fs sd))
    (t : TgtDir) : motive t := by
  have key : ∀ n t, sizeOf t ≤ n → motive t := by
    intro n
    induction n with
    | zero =>
      intro t ht
      exact absurd ht (by have := TgtDir.sizeOf_pos_tgt t; omega)
    | succ n ih =>
      intro t ht
      cases t with
      | mk fs sd =>
        apply h
        intro c hc
        apply ih
        have h1 : sizeOf c < sizeOf sd := List.sizeOf_lt_of_mem hc
        have h2 : sizeOf c.2 < sizeOf c := by
          cases c with
          | mk a b => simp
        simp at ht
        omega
  exact key (sizeOf t) t (le_refl _)

@[simp] theorem SrcDir.mtime_mk (m : Int) (fs : List SrcFile)
    (sd : List (String × SrcDir)) : (SrcDir.mk m fs sd).mtime = m := rfl

@[simp] theorem SrcDir.files_mk (m : Int) (fs : List SrcFile)
    (sd : List (String × SrcDir)) : (SrcDir.mk m fs sd).files = fs := rfl

@[simp] theorem SrcDir.subdirs_mk (m : Int) (fs : List SrcFile)
    (sd : List (String × SrcDir)) : (SrcDir.mk m fs sd).subdirs = sd := rfl

@[simp] theorem TgtDir.files_mk_tgt (fs : List String)
    (sd : List (String × TgtDir)) : (TgtDir.mk fs sd).files = fs := rfl

@[simp] theorem TgtDir.subdirs_mk_tgt (fs : List String)
    (sd : List (String × TgtDir)) : (TgtDir.mk fs sd).subdirs = sd := rfl

theorem SrcDir.walk_eq (m : Int) (fs : List SrcFile) (sd : List (String × SrcDir))
    (p : RPath) :
    SrcDir.walk (.mk m fs sd) p = (p, .mk m fs sd) :: SrcDir.walkList sd p := by
  simp [SrcDir.walk]

@[simp] theorem SrcDir.walkList_nil (p : RPath) : SrcDir.walkList [] p = [] := by
  simp [SrcDir.walkList]

theorem SrcDir.walkList_cons (n : String) (c : SrcDir)
    (rest : List (String × SrcDir)) (p : RPath) :
    SrcDir.walkList ((n, c) :: rest) p =
      SrcDir.walk c (p ++ [n]) ++ SrcDir.walkList rest p := by
  simp [SrcDir.walkList]

theorem mem_walkList {x : RPath × SrcDir} (sd : List (String × SrcDir)) (p : RPath) :
    x ∈ SrcDir.walkList sd p ↔ ∃ c ∈ sd, x ∈ SrcDir.walk c.2 (p ++ [c.1]) := by
  induction sd with
  | nil => simp
  | cons c rest ih =>
    obtain ⟨n, d⟩ := c
    simp [SrcDir.walkList_cons, ih, List.mem_append]

theorem self_mem_walk (t : SrcDir) (p : RPath) : (p, t) ∈ t.walk p := by
  cases t with
  | mk m fs sd => rw [SrcDir.walk_eq]; exact List.mem_cons_self _ _

theorem walk_path_shape (t : SrcDir) :
    ∀ (p : RPath) (x : RPath × SrcDir), x ∈ t.walk p → ∃ r, x.1 = p ++ r := by
  induction t using SrcDir.inductionOn with
  | h m fs sd ih =>
    intro p x hx
    rw [SrcDir.walk_eq] at hx
    rcases List.mem_cons.mp hx with h1 | h1
    · exact ⟨[], by simp [h1]⟩
    · obtain ⟨c, hc, hx'⟩ := (mem_walkList _ _).mp h1
      obtain ⟨r, hr⟩ := ih c hc (p ++ [c.1]) x hx'
      exact ⟨c.1 :: r, by simp [hr]⟩

theorem strictUnder_iff (a b : RPath) :
    strictUnder a b = true ↔ ∃ r, r ≠ [] ∧ b = a ++ r := by
  constructor
  · intro h
    simp [strictUnder] at h
    refine ⟨b.drop a.length, ?_, ?_⟩
    · intro hd
      have := congrArg List.length hd
      simp at this
      omega
    · conv_lhs => rw [← List.take_append_drop a.length b]
      rw [h.2]
  · rintro ⟨r, hr, rfl⟩
    have hlen : 0 < r.length := List.length_pos.mpr hr
    simp [strictUnder]
    omega

theorem strictUnder_false_of_le (a b : RPath) (h : b.length ≤ a.length) :
    strictUnder a b = false := by
  simp [strictUnder]
  omega

theorem SrcDir.nodupNamesList_iff (sd : List (String × SrcDir)) :
    SrcDir.nodupNamesList sd = true ↔ ∀ c ∈ sd, c.2.nodupNames = true := by
  induction sd with
  | nil => simp [SrcDir.nodupNamesList]
  | cons c rest ih =>
    obtain ⟨n, d⟩ := c
    simp [SrcDir.nodupNamesList, ih]

theorem SrcDir.nodupNames_mk (m : Int) (fs : List SrcFile)
    (sd : List (String × SrcDir)) :
    SrcDir.nodupNames (.mk m fs sd) =
      (decide ((sd.map Prod.fst).Nodup) && SrcDir.nodupNamesList sd) := by
  simp [SrcDir.nodupNames]

theorem TgtDir.nodupNamesList_iff_tgt (sd : List (String × TgtDir)) :
    TgtDir.nodupNamesList sd = true ↔ ∀ c ∈ sd, c.2.nodupNames = true := by
  induction sd with
  | nil => simp [TgtDir.nodupNamesList]
  | cons c rest ih =>
    obtain ⟨n, d⟩ := c
    simp [TgtDir.nodupNamesList, ih]

theorem TgtDir.nodupNames_mk_tgt (fs : List String) (sd : List (String × TgtDir)) :
    TgtDir.nodupNames (.mk fs sd) =
      (decide ((sd.map Prod.fst).Nodup) && TgtDir.nodupNamesList sd) := by
  simp [TgtDir.nodupNames]

/-! ## The change scanner -/

theorem scanLoop_fst (since : Int) :
    ∀ (l : List (RPath × SrcDir)) (st : Stats),
      (scanLoop since l st).1 =
        l.filter (fun x => !x.1.isEmpty && decide (since < x.2.mtime)) := by
  intro l
  induction l with
  | nil => intro st; simp [scanLoop]
  | cons x rest ih =>
    intro st
    obtain ⟨p, d⟩ := x
    by_cases hp : p = []
    · subst hp
      simp [scanLoop, ih]
    · by_cases hm : since < d.mtime
      · simp [scanLoop, hp, hm, ih, List.filter_cons]
      · simp [scanLoop, hp, hm, ih, List.filter_cons]

theorem scanLoop_snd (since : Int) :
    ∀ (l : List (RPath × SrcDir)) (st : Stats),
      (scanLoop since l st).2 =
        { st with
            dirs_scanned := st.dirs_scanned + l.length
            dirs_changed := st.dirs_changed +
              (l.filter (fun x => !x.1.isEmpty && decide (since < x.2.mtime))).length } := by
  intro l
  induction l with
  | nil => intro st; cases st; simp [scanLoop]
  | cons x rest ih =>
    intro st
    obtain ⟨p, d⟩ := x
    by_cases hp : p = []
    · subst hp
      cases st
      simp [scanLoop, ih, List.filter_cons]; omega
    · by_cases hm : since < d.mtime
      · cases st
        simp [scanLoop, hp, hm, ih, List.filter_cons]; omega
      · cases st
        simp [scanLoop, hp, hm, ih, List.filter_cons]; omega

theorem changedOf_eq_filter (S : SrcDir) (since : Int) :
    changedOf S since =
      (S.walk []).filter (fun x => !x.1.isEmpty && decide (since < x.2.mtime)) := by
  simp [changedOf, scan_changed_directories, scanLoop_fst]

theorem scan_fst_eq (S : SrcDir) (since : Int) (st : Stats) :
    (scan_changed_directories S since st).1 = changedOf S since := by
  simp [scan_changed_directories, scanLoop_fst, changedOf_eq_filter]

theorem walkList_path_shape (sd : List (String × SrcDir)) (p : RPath)
    (x : RPath × SrcDir) (hx : x ∈ SrcDir.walkList sd p) :
    ∃ c ∈ sd, ∃ r, x.1 = p ++ [c.1] ++ r := by
  obtain ⟨c, hc, hx'⟩ := (mem_walkList _ _).mp hx
  obtain ⟨r, hr⟩ := walk_path_shape c.2 _ x hx'
  exact ⟨c, hc, r, by simp [hr]⟩

theorem walkList_pairwise (sd : List (String × SrcDir)) (p : RPath)
    (hnodup : (sd.map Prod.fst).Nodup)
    (hlist : ∀ c ∈ sd, c.2.nodupNames = true)
    (ih : ∀ c ∈ sd, ∀ q, c.2.nodupNames = true →
      List.Pairwise (fun x y => strictUnder y.1 x.1 = false) (c.2.walk q)) :
    List.Pairwise (fun x y => strictUnder y.1 x.1 = false) (SrcDir.walkList sd p) := by
  induction sd with
  | nil => simp
  | cons c rest ihl =>
    obtain ⟨n, d⟩ := c
    rw [SrcDir.walkList_cons]
    apply List.pairwise_append.mpr
    simp only [List.map_cons, List.nodup_cons] at hnodup
    refine ⟨?_, ?_, ?_⟩
    · exact ih (n, d) (by simp) (p ++ [n]) (hlist (n, d) (by simp))
    · apply ihl hnodup.2
      · intro c hc
        exact hlist c (List.mem_cons_of_mem _ hc)
      · intro c hc q hq
        exact ih c (List.mem_cons_of_mem _ hc) q hq
    · intro x hx y hy
      obtain ⟨rx, hrx⟩ := walk_path_shape d _ x hx
      obtain ⟨c', hc', ry, hry⟩ := walkList_path_shape rest p y hy
      by_contra hcon
      rw [Bool.not_eq_false] at hcon
      obtain ⟨r, hr, heq⟩ := (strictUnder_iff _ _).mp hcon
      rw [hrx, hry] at heq
      have h2 : p ++ ([n] ++ rx) = p ++ ([c'.1] ++ (ry ++ r)) := by
        simpa [List.append_assoc] using heq
      have h3 : ([n] ++ rx) = ([c'.1] ++ (ry ++ r)) := by
        exact List.append_cancel_left h2
      have h4 : n = c'.1 := by
        simpa using congrArg (fun l => l.headI) h3
      exact hnodup.1 (h4 ▸ List.mem_map_of_mem Prod.fst hc')

theorem walk_pairwise (t : SrcDir) :
    ∀ p, t.nodupNames = true →
      List.Pairwise (fun x y => strictUnder y.1 x.1 = false) (t.walk p) := by
  induction t using SrcDir.inductionOn with
  | h m fs sd ih =>
    intro p hnd
    rw [SrcDir.nodupNames_mk] at hnd
    simp only [Bool.and_eq_true, decide_eq_true_eq] at hnd
    obtain ⟨hnodup, hlist⟩ := hnd
    rw [SrcDir.nodupNamesList_iff] at hlist
    rw [SrcDir.walk_eq]
    rw [List.pairwise_cons]
    constructor
    · intro y hy
      obtain ⟨c, hc, r, hr⟩ := walkList_path_shape sd p y hy
      apply strictUnder_false_of_le
      rw [hr]
      simp
    · exact walkList_pairwise sd p hnodup hlist ih

/-! ## The mirroring loop -/

theorem syncLoop_newest (env : FsEnv) :
    ∀ (l : List (RPath × SrcDir)) (i : Nat) (ls : LoopState),
      (syncLoop env l i ls).newest =
        l.foldl (fun a x => if x.2.mtime > a then x.2.mtime else a) ls.newest := by
  intro l
  induction l with
  | nil => intro i ls; simp [syncLoop]
  | cons x rest ih =>
    intro i ls
    obtain ⟨p, d⟩ := x
    simp [syncLoop, ih]

theorem foldMax_init_le :
    ∀ (l : List (RPath × SrcDir)) (a : Int),
      a ≤ l.foldl (fun a x => if x.2.mtime > a then x.2.mtime else a) a := by
  intro l
  induction l with
  | nil => intro a; simp
  | cons x rest ih =>
    intro a
    have h1 : a ≤ (if x.2.mtime > a then x.2.mtime else a) := by
      by_cases h : x.2.mtime > a
      · simp [h]; omega
      · simp [h]
    calc a ≤ (if x.2.mtime > a then x.2.mtime else a) := h1
      _ ≤ _ := by rw [List.foldl_cons]; exact ih _

theorem foldMax_mem_le :
    ∀ (l : List (RPath × SrcDir)) (a : Int) (x : RPath × SrcDir), x ∈ l →
      x.2.mtime ≤ l.foldl (fun a x => if x.2.mtime > a then x.2.mtime else a) a := by
  intro l
  induction l with
  | nil => intro a x hx; simp at hx
  | cons y rest ih =>
    intro a x hx
    rcases List.mem_cons.mp hx with h1 | h1
    · subst h1
      rw [List.foldl_cons]
      have h2 : x.2.mtime ≤ (if x.2.mtime > a then x.2.mtime else a) := by
        by_cases h : x.2.mtime > a
        · simp [h]
        · simp [h]; omega
      exact le_trans h2 (foldMax_init_le rest _)
    · rw [List.foldl_cons]
      exact ih _ x h1

theorem foldMax_eq_init_or_mem :
    ∀ (l : List (RPath × SrcDir)) (a : Int),
      l.foldl (fun a x => if x.2.mtime > a then x.2.mtime else a) a = a ∨
        ∃ x ∈ l, l.foldl (fun a x => if x.2.mtime > a then x.2.mtime else a) a = x.2.mtime := by
  intro l
  induction l with
  | nil => intro a; left; simp
  | cons y rest ih =>
    intro a
    rw [List.foldl_cons]
    by_cases h : y.2.mtime > a
    · rcases ih y.2.mtime with h1 | h1
      · right
        refine ⟨y, List.mem_cons_self _ _, ?_⟩
        simpa [h] using h1
      · obtain ⟨x, hx, he⟩ := h1
        right
        refine ⟨x, List.mem_cons_of_mem _ hx, ?_⟩
        simpa [h] using he
    · rcases ih a with h1 | h1
      · left
        simpa [h] using h1
      · obtain ⟨x, hx, he⟩ := h1
        right
        refine ⟨x, List.mem_cons_of_mem _ hx, ?_⟩
        simpa [h] using he

theorem chain_le_append_singleton (l : List Int) (b : Int)
    (hl : List.Chain' (· ≤ ·) l) (hb : ∀ c ∈ l, c ≤ b) :
    List.Chain' (· ≤ ·) (l ++ [b]) := by
  induction l with
  | nil => simp
  | cons x rest ih =>
    rw [List.cons_append, List.chain'_cons']
    rw [List.chain'_cons'] at hl
    constructor
    · intro y hy
      cases rest with
      | nil =>
        simp at hy
        subst hy
        exact hb x (List.mem_cons_self _ _)
      | cons z zs =>
        simp at hy
        subst hy
        exact hl.1 z (by simp)
    · exact ih hl.2 (fun c hc => hb c (List.mem_cons_of_mem _ hc))

theorem syncLoop_cps (env : FsEnv) :
    ∀ (l : List (RPath × SrcDir)) (i : Nat) (ls : LoopState),
      (∀ c ∈ ls.checkpoints, c ≤ ls.newest) → List.Chain' (· ≤ ·) ls.checkpoints →
      (∀ c ∈ (syncLoop env l i ls).checkpoints, c ≤ (syncLoop env l i ls).newest) ∧
        List.Chain' (· ≤ ·) (syncLoop env l i ls).checkpoints := by
  intro l
  induction l with
  | nil => intro i ls h1 h2; exact ⟨by simpa [syncLoop] using h1, by simpa [syncLoop] using h2⟩
  | cons x rest ih =>
    intro i ls h1 h2
    obtain ⟨p, d⟩ := x
    have hstep : ls.newest ≤ (if d.mtime > ls.newest then d.mtime else ls.newest) := by
      by_cases h : d.mtime > ls.newest
      · simp [h]; omega
      · simp [h]
    by_cases hcp : i % 50 = 0
    · have := ih (i + 1)
        ⟨(if d.mtime > ls.newest then d.mtime else ls.newest),
         (sync_directory env ls.target p d ls.stats).1,
         (sync_directory env ls.target p d ls.stats).2,
         ls.checkpoints ++ [(if d.mtime > ls.newest then d.mtime else ls.newest)]⟩
        (by
          intro c hc
          simp at hc
          rcases hc with hc | hc
          · exact le_trans (h1 c hc) hstep
          · simp [hc])
        (by
          exact chain_le_append_singleton _ _ h2
            (fun c hc => le_trans (h1 c hc) hstep))
      simpa [syncLoop, hcp] using this
    · have := ih (i + 1)
        ⟨(if d.mtime > ls.newest then d.mtime else ls.newest),
         (sync_directory env ls.target p d ls.stats).1,
         (sync_directory env ls.target p d ls.stats).2,
         ls.checkpoints⟩
        (by
          intro c hc
          exact le_trans (h1 c hc) hstep)
        h2
      simpa [syncLoop, hcp] using this

/-! ## Branches of `sync_configuration` -/

theorem sync_configuration_of_no_changes (env : FsEnv) (S : SrcDir) (T : TgtDir)
    (since : Int) (intr : Option Nat) (h : changedOf S since = []) :
    sync_configuration env S T since intr =
      ⟨true, since,
        (cleanup_target env S (sync_root_files env S T Stats.zero).1
          (scan_changed_directories S since (sync_root_files env S T Stats.zero).2).2).1,
        (cleanup_target env S (sync_root_files env S T Stats.zero).1
          (scan_changed_directories S since (sync_root_files env S T Stats.zero).2).2).2,
        []⟩ := by
  have hl : (scan_changed_directories S since (sync_root_files env S T Stats.zero).2).1 = [] := by
    rw [scan_fst_eq]
    exact h
  simp [sync_configuration, hl]

theorem sync_configuration_of_changes_none (env : FsEnv) (S : SrcDir) (T : TgtDir)
    (since : Int) (h : changedOf S since ≠ []) :
    sync_configuration env S T since none =
      syncFinish env S (syncLoop env (changedOf S since) 1
        ⟨since, (sync_root_files env S T Stats.zero).1,
         (scan_changed_directories S since (sync_root_files env S T Stats.zero).2).2, []⟩) := by
  have hl : (scan_changed_directories S since (sync_root_files env S T Stats.zero).2).1 =
      changedOf S since := scan_fst_eq S since _
  have hlen : ¬((scan_changed_directories S since (sync_root_files env S T Stats.zero).2).1.length = 0) := by
    rw [hl]
    simpa [List.length_eq_zero] using h
  simp [sync_configuration, hlen, hl, h]

theorem sync_configuration_interrupted (env : FsEnv) (S : SrcDir) (T : TgtDir)
    (since : Int) (k : Nat) (h : changedOf S since ≠ [])
    (hk : k ≤ (changedOf S since).length) :
    sync_configuration env S T since (some k) =
      ⟨false,
        (syncLoop env ((changedOf S since).take k) 1
          ⟨since, (sync_root_files env S T Stats.zero).1,
           (scan_changed_directories S since (sync_root_files env S T Stats.zero).2).2, []⟩).newest,
        (syncLoop env ((changedOf S since).take k) 1
          ⟨since, (sync_root_files env S T Stats.zero).1,
           (scan_changed_directories S since (sync_root_files env S T Stats.zero).2).2, []⟩).target,
        (syncLoop env ((changedOf S since).take k) 1
          ⟨since, (sync_root_files env S T Stats.zero).1,
           (scan_changed_directories S since (sync_root_files env S T Stats.zero).2).2, []⟩).stats,
        (syncLoop env ((changedOf S since).take k) 1
          ⟨since, (sync_root_files env S T Stats.zero).1,
           (scan_changed_directories S since (sync_root_files env S T Stats.zero).2).2, []⟩).checkpoints⟩ := by
  have hl : (scan_changed_directories S since (sync_root_files env S T Stats.zero).2).1 =
      changedOf S since := scan_fst_eq S since _
  have hlen : ¬((scan_changed_directories S since (sync_root_files env S T Stats.zero).2).1.length = 0) := by
    rw [hl]
    simpa [List.length_eq_zero] using h
  rw [sync_configuration]
  simp only [hl, hlen, if_false]
  simp [hk, hl, h]

theorem sync_configuration_of_changes_some_gt (env : FsEnv) (S : SrcDir) (T : TgtDir)
    (since : Int) (k : Nat) (h : changedOf S since ≠ [])
    (hk : ¬k ≤ (changedOf S since).length) :
    sync_configuration env S T since (some k) =
      syncFinish env S (syncLoop env (changedOf S since) 1
        ⟨since, (sync_root_files env S T Stats.zero).1,
         (scan_changed_directories S since (sync_root_files env S T Stats.zero).2).2, []⟩) := by
  have hl : (scan_changed_directories S since (sync_root_files env S T Stats.zero).2).1 =
      changedOf S since := scan_fst_eq S since _
  have hlen : ¬((scan_changed_directories S since (sync_root_files env S T Stats.zero).2).1.length = 0) := by
    rw [hl]
    simpa [List.length_eq_zero] using h
  simp [sync_configuration, hlen, hl, h, hk]

theorem sync_newest_ge (env : FsEnv) (S : SrcDir) (T : TgtDir) (since : Int)
    (intr : Option Nat) : since ≤ (sync_configuration env S T since intr).newest := by
  by_cases h : changedOf S since = []
  · rw [sync_configuration_of_no_changes env S T since intr h]
  · cases intr with
    | none =>
      rw [sync_configuration_of_changes_none env S T since h]
      simp only [syncFinish]
      rw [syncLoop_newest]
      exact foldMax_init_le _ _
    | some k =>
      by_cases hk : k ≤ (changedOf S since).length
      · rw [sync_configuration_interrupted env S T since k h hk]
        simp only []
        rw [syncLoop_newest]
        exact foldMax_init_le _ _
      · rw [sync_configuration_of_changes_some_gt env S T since k h hk]
        simp only [syncFinish]
        rw [syncLoop_newest]
        exact foldMax_init_le _ _

/-! ## The state store -/

theorem getLastSyncV_set (state : List (String × Int)) (name : String) (t : Int) :
    getLastSyncV (setLastSyncV state name t) name = t := by
  induction state with
  | nil => simp [getLastSyncV, setLastSyncV]
  | cons kv rest ih =>
    by_cases hb : kv.1 = name
    · have h1 : setLastSyncV (kv :: rest) name t =
          (kv.1, t) :: rest.map (fun kv => if kv.1 == name then (kv.1, t) else kv) := by
        simp [setLastSyncV, List.any_cons, hb]
      rw [h1]
      simp [getLastSyncV, List.find?, hb]
    · by_cases ha : rest.any (fun kv => kv.1 == name) = true
      · have h1 : setLastSyncV (kv :: rest) name t =
            kv :: rest.map (fun kv => if kv.1 == name then (kv.1, t) else kv) := by
          simp [setLastSyncV, List.any_cons, hb, ha]
        rw [h1]
        have h2 : setLastSyncV rest name t =
            rest.map (fun kv => if kv.1 == name then (kv.1, t) else kv) := by
          simp [setLastSyncV, ha]
        rw [h2] at ih
        have hbeq : (kv.1 == name) = false := by
          simp [hb]
        simpa [getLastSyncV, List.find?, hb, hbeq] using ih
      · have haf : rest.any (fun kv => kv.1 == name) = false := by
          cases hx : rest.any (fun kv => kv.1 == name) with
          | false => rfl
          | true => exact absurd hx ha
        have h1 : setLastSyncV (kv :: rest) name t = kv :: (rest ++ [(name, t)]) := by
          simp [setLastSyncV, List.any_cons, hb, haf]
        rw [h1]
        have h2 : setLastSyncV rest name t = rest ++ [(name, t)] := by
          simp [setLastSyncV, haf]
        rw [h2] at ih
        have hbeq : (kv.1 == name) = false := by
          simp [hb]
        simpa [getLastSyncV, List.find?, hb, hbeq] using ih

theorem mainStep_persists (state : List (String × Int)) (name : String) (job : SyncJob) :
    getLastSyncV (mainStep state name job).1 name =
      (sync_configuration job.env job.source job.target (getLastSyncV state name)
        job.interrupt).newest := by
  simp [mainStep, getLastSyncV_set]

theorem mainStep_mono (state : List (String × Int)) (name : String) (job : SyncJob) :
    getLastSyncV state name ≤ getLastSyncV (mainStep state name job).1 name := by
  rw [mainStep_persists]
  exact sync_newest_ge _ _ _ _ _

theorem mainRunJobs_mono :
    ∀ (jobs : List SyncJob) (state : List (String × Int)) (name : String),
      getLastSyncV state name ≤ getLastSyncV (mainRunJobs state name jobs) name := by
  intro jobs
  induction jobs with
  | nil => intro state name; simp [mainRunJobs]
  | cons j rest ih =>
    intro state name
    calc getLastSyncV state name ≤ getLastSyncV (mainStep state name j).1 name :=
          mainStep_mono state name j
      _ ≤ _ := by
          rw [mainRunJobs]
          exact ih _ name

/-! ## Target-tree operations -/

theorem list_contains_iff (l : List String) (n : String) :
    l.contains n = true ↔ n ∈ l := List.elem_iff

theorem TgtDir.setChild_files (t : TgtDir) (n : String) (c : TgtDir) :
    (t.setChild n c).files = t.files := by
  cases t with
  | mk fs sd =>
    simp only [TgtDir.setChild]
    split
    · simp
    · simp

theorem findRename (sd : List (String × TgtDir)) (n : String) (c : TgtDir)
    (h : sd.any (fun x => x.1 == n) = true) :
    (sd.map (fun x => if x.1 == n then (x.1, c) else x)).find? (fun x => x.1 == n) =
      some (n, c) := by
  induction sd with
  | nil => simp at h
  | cons x rest ih =>
    by_cases hx : x.1 = n
    · simp [List.find?, hx]
    · have hx' : (x.1 == n) = false := by
        simp [hx]
      simp only [List.any_cons, hx', Bool.false_or] at h
      simp only [List.map_cons, List.find?, hx', if_false]
      simpa [hx'] using ih h

theorem findAppend (sd : List (String × TgtDir)) (n : String) (c : TgtDir)
    (h : sd.any (fun x => x.1 == n) = false) :
    (sd ++ [(n, c)]).find? (fun x => x.1 == n) = some (n, c) := by
  induction sd with
  | nil => simp [List.find?]
  | cons x rest ih =>
    simp only [List.any_cons, Bool.or_eq_false_iff] at h
    simp only [List.cons_append, List.find?, h.1]
    exact ih h.2

theorem TgtDir.child?_setChild_self (t : TgtDir) (n : String) (c : TgtDir) :
    (t.setChild n c).child? n = some c := by
  cases t with
  | mk fs sd =>
    simp only [TgtDir.setChild]
    by_cases h : sd.any (fun x => x.1 == n) = true
    · simp only [h, if_true, TgtDir.child?, TgtDir.subdirs_mk_tgt]
      rw [findRename sd n c h]
    · have h' : sd.any (fun x => x.1 == n) = false := by
        cases hx : sd.any (fun x => x.1 == n) with
        | false => rfl
        | true => exact absurd hx h
      simp only [h', Bool.false_eq_true, if_false, TgtDir.child?, TgtDir.subdirs_mk_tgt]
      rw [findAppend sd n c h']

theorem TgtDir.child?_setChild_other (t : TgtDir) (n m : String) (c : TgtDir)
    (hmn : m ≠ n) : (t.setChild n c).child? m = t.child? m := by
  cases t with
  | mk fs sd =>
    simp only [TgtDir.setChild]
    split
    · simp only [TgtDir.child?, TgtDir.subdirs_mk_tgt]
      have h1 : (sd.map (fun x => if x.1 == n then (x.1, c) else x)).find?
          (fun x => x.1 == m) =
          (sd.find? ((fun (x : String × TgtDir) => x.1 == m) ∘
            (fun x => if x.1 == n then (x.1, c) else x))).map
            (fun x => if x.1 == n then (x.1, c) else x) := by
        rw [List.find?_map]
      have h2 : ((fun (x : String × TgtDir) => x.1 == m) ∘
          (fun x => if x.1 == n then (x.1, c) else x)) =
          (fun (x : String × TgtDir) => x.1 == m) := by
        funext x
        by_cases hx : x.1 = n
        · simp [hx, Ne.symm hmn]
        · simp [hx]
      rw [h2] at h1
      rw [h1]
      cases hf : sd.find? (fun x => x.1 == m) with
      | none => simp
      | some e =>
        have he := List.find?_some hf
        have he' : e.1 = m := by
          simpa using he
        have hen : (e.1 == n) = false := by
          simp [he', hmn]
        have hprop : ¬(e.1 = n) := by
          rw [he']
          exact hmn
        simp [hen, hprop]
    · simp only [TgtDir.child?, TgtDir.subdirs_mk_tgt]
      rw [List.find?_append]
      have hnm : (n == m) = false := by
        have hx : ¬(n = m) := fun hx => hmn hx.symm
        simp [hx]
      have h2 : ([(n, c)].find? (fun x => x.1 == m)) = none := by
        simp [List.find?, hnm]
      cases hf : sd.find? (fun x => x.1 == m) with
      | none => simp [hf, h2]
      | some e => simp [hf]

theorem TgtDir.fileMem_nil_path (t : TgtDir) : t.fileMem [] = false := by
  cases t with
  | mk fs sd => simp [TgtDir.fileMem]

theorem TgtDir.fileMem_single (t : TgtDir) (n : String) :
    t.fileMem [n] = t.files.contains n := by
  cases t with
  | mk fs sd => simp [TgtDir.fileMem]

theorem TgtDir.fileMem_cons (t : TgtDir) (n : String) (q : RPath) (hq : q ≠ []) :
    t.fileMem (n :: q) =
      match t.child? n with
      | some c => c.fileMem q
      | none => false := by
  cases t with
  | mk fs sd =>
    cases q with
    | nil => exact absurd rfl hq
    | cons a as => simp [TgtDir.fileMem]

theorem TgtDir.dirMem_cons (t : TgtDir) (n : String) (q : RPath) :
    t.dirMem (n :: q) =
      match t.child? n with
      | some c => c.dirMem q
      | none => false := by
  cases t with
  | mk fs sd => simp [TgtDir.dirMem]

theorem fileMem_setChild_of (t : TgtDir) (n : String) (c c' : TgtDir)
    (hc : t.child? n = some c)
    (hmono : ∀ q, c.fileMem q = true → c'.fileMem q = true) :
    ∀ q, t.fileMem q = true → (t.setChild n c').fileMem q = true := by
  intro q h
  cases q with
  | nil => rw [TgtDir.fileMem_nil_path] at h; exact absurd h (by simp)
  | cons m rest =>
    cases rest with
    | nil =>
      rw [TgtDir.fileMem_single] at h ⊢
      rw [TgtDir.setChild_files]
      exact h
    | cons a as =>
      rw [TgtDir.fileMem_cons _ _ _ (by simp)] at h ⊢
      by_cases hm : m = n
      · subst hm
        rw [hc] at h
        rw [TgtDir.child?_setChild_self]
        exact hmono _ h
      · rw [TgtDir.child?_setChild_other _ _ _ _ hm]
        exact h

theorem TgtDir.fileMem_mkdirP :
    ∀ (p : RPath) (t : TgtDir) (q : RPath),
      t.fileMem q = true → (t.mkdirP p).fileMem q = true := by
  intro p
  induction p with
  | nil => intro t q h; simpa [TgtDir.mkdirP] using h
  | cons n rest ih =>
    intro t q h
    rw [TgtDir.mkdirP]
    cases hc : t.child? n with
    | some c =>
      refine fileMem_setChild_of t n c _ hc ?_ q h
      intro q' h'
      simpa [hc] using ih c q' h'
    | none =>
      cases q with
      | nil => rw [TgtDir.fileMem_nil_path] at h; exact absurd h (by simp)
      | cons m rest' =>
        cases rest' with
        | nil =>
          rw [TgtDir.fileMem_single] at h ⊢
          rw [TgtDir.setChild_files]
          exact h
        | cons a as =>
          rw [TgtDir.fileMem_cons _ _ _ (by simp)] at h ⊢
          by_cases hm : m = n
          · subst hm
            rw [hc] at h
            exact absurd h (by simp)
          · rw [TgtDir.child?_setChild_other _ _ _ _ hm]
            exact h

theorem TgtDir.fileMem_insertFile_mono :
    ∀ (p : RPath) (t : TgtDir) (m : String) (q : RPath),
      t.fileMem q = true → (t.insertFile p m).fileMem q = true := by
  intro p
  induction p with
  | nil =>
    intro t m q h
    cases t with
    | mk fs sd =>
      cases q with
      | nil => rw [TgtDir.fileMem_nil_path] at h; exact absurd h (by simp)
      | cons a rest =>
        cases rest with
        | nil =>
          rw [TgtDir.fileMem_single] at h ⊢
          simp only [TgtDir.insertFile, TgtDir.files_mk_tgt]
          by_cases hm : m ∈ fs
          · simpa [hm] using h
          · simp only [hm, if_false]
            simp only [TgtDir.files_mk_tgt] at h
            rw [list_contains_iff] at h
            rw [list_contains_iff]
            exact List.mem_append_left _ h
        | cons b bs =>
          rw [TgtDir.fileMem_cons _ _ _ (by simp)] at h ⊢
          have : (TgtDir.insertFile (TgtDir.mk fs sd) [] m).child? a =
              (TgtDir.mk fs sd).child? a := by
            simp [TgtDir.insertFile, TgtDir.child?]
          rw [this]
          exact h
  | cons n rest ih =>
    intro t m q h
    cases t with
    | mk fs sd =>
      rw [TgtDir.insertFile]
      cases hc : (TgtDir.mk fs sd).child? n with
      | none => exact h
      | some c =>
        refine fileMem_setChild_of _ n c _ hc ?_ q h
        intro q' h'
        exact ih c m q' h'

theorem TgtDir.fileMem_insertFile_self :
    ∀ (p : RPath) (t : TgtDir) (m : String),
      t.dirMem p = true → (t.insertFile p m).fileMem (p ++ [m]) = true := by
  intro p
  induction p with
  | nil =>
    intro t m _
    cases t with
    | mk fs sd =>
      simp only [List.nil_append]
      rw [TgtDir.fileMem_single]
      simp only [TgtDir.insertFile, TgtDir.files_mk_tgt]
      by_cases hm : m ∈ fs
      · rw [list_contains_iff]
        simp [hm]
      · rw [list_contains_iff]
        simp [hm]
  | cons n rest ih =>
    intro t m hd
    cases t with
    | mk fs sd =>
      rw [TgtDir.dirMem_cons] at hd
      cases hc : (TgtDir.mk fs sd).child? n with
      | none => rw [hc] at hd; exact absurd hd (by simp)
      | some c =>
        rw [hc] at hd
        rw [TgtDir.insertFile, hc]
        have hne : rest ++ [m] ≠ [] := by simp
        rw [List.cons_append, TgtDir.fileMem_cons _ _ _ hne]
        rw [TgtDir.child?_setChild_self]
        exact ih c m hd

/-! ## Root-file sync and directory mirror -/

theorem rootFoldPreserves (env : FsEnv) :
    ∀ (l : List SrcFile) (acc : TgtDir × Stats) (q : RPath),
      acc.1.fileMem q = true →
      ((l.foldl (fun acc f =>
        if env.copyFails [f.name] then
          (acc.1, { acc.2 with errors := acc.2.errors + 1 })
        else
          (acc.1.insertFile [] f.name,
           { acc.2 with
               files_synced := acc.2.files_synced + 1
               bytes_synced := acc.2.bytes_synced + f.size })) acc).1).fileMem q = true := by
  intro l
  induction l with
  | nil => intro acc q h; simpa using h
  | cons f rest ih =>
    intro acc q h
    rw [List.foldl_cons]
    apply ih
    by_cases hc : env.copyFails [f.name] = true
    · simpa [hc] using h
    · have hc' : env.copyFails [f.name] = false := by
        cases hx : env.copyFails [f.name] with
        | false => rfl
        | true => exact absurd hx hc
      simp only [hc', Bool.false_eq_true, if_false]
      exact TgtDir.fileMem_insertFile_mono [] acc.1 f.name q h

theorem rootFoldAll (env : FsEnv) :
    ∀ (l : List SrcFile) (acc : TgtDir × Stats),
      (∀ f ∈ l, env.copyFails [f.name] = false) →
      ∀ f ∈ l, ((l.foldl (fun acc f =>
        if env.copyFails [f.name] then
          (acc.1, { acc.2 with errors := acc.2.errors + 1 })
        else
          (acc.1.insertFile [] f.name,
           { acc.2 with
               files_synced := acc.2.files_synced + 1
               bytes_synced := acc.2.bytes_synced + f.size })) acc).1).fileMem [f.name] = true := by
  intro l
  induction l with
  | nil => intro acc _ f hf; simp at hf
  | cons g rest ih =>
    intro acc hcf f hf
    rw [List.foldl_cons]
    have hg : env.copyFails [g.name] = false := hcf g (List.mem_cons_self _ _)
    rcases List.mem_cons.mp hf with h1 | h1
    · subst h1
      apply rootFoldPreserves
      simp only [hg, Bool.false_eq_true, if_false]
      exact TgtDir.fileMem_insertFile_self [] acc.1 f.name (by simp [TgtDir.dirMem])
    · exact ih _ (fun f' hf' => hcf f' (List.mem_cons_of_mem _ hf')) f h1

theorem rootFoldStatsFields (env : FsEnv) :
    ∀ (l : List SrcFile) (acc : TgtDir × Stats),
      ((l.foldl (fun acc f =>
        if env.copyFails [f.name] then
          (acc.1, { acc.2 with errors := acc.2.errors + 1 })
        else
          (acc.1.insertFile [] f.name,
           { acc.2 with
               files_synced := acc.2.files_synced + 1
               bytes_synced := acc.2.bytes_synced + f.size })) acc).2).files_deleted =
          acc.2.files_deleted ∧
      ((l.foldl (fun acc f =>
        if env.copyFails [f.name] then
          (acc.1, { acc.2 with errors := acc.2.errors + 1 })
        else
          (acc.1.insertFile [] f.name,
           { acc.2 with
               files_synced := acc.2.files_synced + 1
               bytes_synced := acc.2.bytes_synced + f.size })) acc).2).dirs_deleted =
          acc.2.dirs_deleted ∧
      ((l.foldl (fun acc f =>
        if env.copyFails [f.name] then
          (acc.1, { acc.2 with errors := acc.2.errors + 1 })
        else
          (acc.1.insertFile [] f.name,
           { acc.2 with
               files_synced := acc.2.files_synced + 1
               bytes_synced := acc.2.bytes_synced + f.size })) acc).2).dirs_scanned =
          acc.2.dirs_scanned ∧
      ((l.foldl (fun acc f =>
        if env.copyFails [f.name] then
          (acc.1, { acc.2 with errors := acc.2.errors + 1 })
        else
          (acc.1.insertFile [] f.name,
           { acc.2 with
               files_synced := acc.2.files_synced + 1
               bytes_synced := acc.2.bytes_synced + f.size })) acc).2).dirs_changed =
          acc.2.dirs_changed := by
  intro l
  induction l with
  | nil => intro acc; simp
  | cons f rest ih =>
    intro acc
    rw [List.foldl_cons]
    by_cases hc : env.copyFails [f.name] = true
    · simpa [hc] using ih _
    · have hc' : env.copyFails [f.name] = false := by
        cases hx : env.copyFails [f.name] with
        | false => rfl
        | true => exact absurd hx hc
      simpa [hc'] using ih _

theorem rootFoldSyncedCount (env : FsEnv) :
    ∀ (l : List SrcFile) (acc : TgtDir × Stats),
      (∀ f ∈ l, env.copyFails [f.name] = false) →
      ((l.foldl (fun acc f =>
        if env.copyFails [f.name] then
          (acc.1, { acc.2 with errors := acc.2.errors + 1 })
        else
          (acc.1.insertFile [] f.name,
           { acc.2 with
               files_synced := acc.2.files_synced + 1
               bytes_synced := acc.2.bytes_synced + f.size })) acc).2).files_synced =
          acc.2.files_synced + l.length := by
  intro l
  induction l with
  | nil => intro acc _; simp
  | cons f rest ih =>
    intro acc hcf
    rw [List.foldl_cons]
    have hg : env.copyFails [f.name] = false := hcf f (List.mem_cons_self _ _)
    simp only [hg, Bool.false_eq_true, if_false]
    rw [ih _ (fun f' hf' => hcf f' (List.mem_cons_of_mem _ hf'))]
    simp
    omega

theorem sync_root_files_preserves (env : FsEnv) (S : SrcDir) (T : TgtDir) (st : Stats)
    (q : RPath) (h : T.fileMem q = true) :
    ((sync_root_files env S T st).1).fileMem q = true :=
  rootFoldPreserves env S.files (T, st) q h

theorem sync_root_files_all (env : FsEnv) (S : SrcDir) (T : TgtDir) (st : Stats)
    (hcf : ∀ f ∈ S.files, env.copyFails [f.name] = false) (f : SrcFile)
    (hf : f ∈ S.files) :
    ((sync_root_files env S T st).1).fileMem [f.name] = true :=
  rootFoldAll env S.files (T, st) hcf f hf

theorem dirFoldPreserves (env : FsEnv) (rel : RPath) :
    ∀ (l : List SrcFile) (acc : TgtDir × Stats) (q : RPath),
      acc.1.fileMem q = true →
      ((l.foldl (fun acc f =>
        if env.copyFails (rel ++ [f.name]) then
          (acc.1, { acc.2 with errors := acc.2.errors + 1 })
        else
          (acc.1.insertFile rel f.name,
           { acc.2 with
               files_synced := acc.2.files_synced + 1
               bytes_synced := acc.2.bytes_synced + f.size })) acc).1).fileMem q = true := by
  intro l
  induction l with
  | nil => intro acc q h; simpa using h
  | cons f rest ih =>
    intro acc q h
    rw [List.foldl_cons]
    apply ih
    by_cases hc : env.copyFails (rel ++ [f.name]) = true
    · simpa [hc] using h
    · have hc' : env.copyFails (rel ++ [f.name]) = false := by
        cases hx : env.copyFails (rel ++ [f.name]) with
        | false => rfl
        | true => exact absurd hx hc
      simp only [hc', Bool.false_eq_true, if_false]
      exact TgtDir.fileMem_insertFile_mono rel acc.1 f.name q h

theorem dirFoldStatsFields (env : FsEnv) (rel : RPath) :
    ∀ (l : List SrcFile) (acc : TgtDir × Stats),
      ((l.foldl (fun acc f =>
        if env.copyFails (rel ++ [f.name]) then
          (acc.1, { acc.2 with errors := acc.2.errors + 1 })
        else
          (acc.1.insertFile rel f.name,
           { acc.2 with
               files_synced := acc.2.files_synced + 1
               bytes_synced := acc.2.bytes_synced + f.size })) acc).2).files_deleted =
          acc.2.files_deleted ∧
      ((l.foldl (fun acc f =>
        if env.copyFails (rel ++ [f.name]) then
          (acc.1, { acc.2 with errors := acc.2.errors + 1 })
        else
          (acc.1.insertFile rel f.name,
           { acc.2 with
               files_synced := acc.2.files_synced + 1
               bytes_synced := acc.2.bytes_synced + f.size })) acc).2).dirs_deleted =
          acc.2.dirs_deleted ∧
      ((l.foldl (fun acc f =>
        if env.copyFails (rel ++ [f.name]) then
          (acc.1, { acc.2 with errors := acc.2.errors + 1 })
        else
          (acc.1.insertFile rel f.name,
           { acc.2 with
               files_synced := acc.2.files_synced + 1
               bytes_synced := acc.2.bytes_synced + f.size })) acc).2).dirs_scanned =
          acc.2.dirs_scanned ∧
      ((l.foldl (fun acc f =>
        if env.copyFails (rel ++ [f.name]) then
          (acc.1, { acc.2 with errors := acc.2.errors + 1 })
        else
          (acc.1.insertFile rel f.name,
           { acc.2 with
               files_synced := acc.2.files_synced + 1
               bytes_synced := acc.2.bytes_synced + f.size })) acc).2).dirs_changed =
          acc.2.dirs_changed := by
  intro l
  induction l with
  | nil => intro acc; simp
  | cons f rest ih =>
    intro acc
    rw [List.foldl_cons]
    by_cases hc : env.copyFails (rel ++ [f.name]) = true
    · simpa [hc] using ih _
    · have hc' : env.copyFails (rel ++ [f.name]) = false := by
        cases hx : env.copyFails (rel ++ [f.name]) with
        | false => rfl
        | true => exact absurd hx hc
      simpa [hc'] using ih _

theorem sync_directory_preserves (env : FsEnv) (T : TgtDir) (rel : RPath) (d : SrcDir)
    (st : Stats) (q : RPath) (h : T.fileMem q = true) :
    ((sync_directory env T rel d st).1).fileMem q = true := by
  rw [sync_directory]
  by_cases hm : env.mkdirFails rel = true
  · simpa [hm] using h
  · have hm' : env.mkdirFails rel = false := by
      cases hx : env.mkdirFails rel with
      | false => rfl
      | true => exact absurd hx hm
    simp only [hm', Bool.false_eq_true, if_false]
    exact dirFoldPreserves env rel d.files (T.mkdirP rel, st) q
      (TgtDir.fileMem_mkdirP rel T q h)

theorem sync_directory_stats (env : FsEnv) (T : TgtDir) (rel : RPath) (d : SrcDir)
    (st : Stats) :
    ((sync_directory env T rel d st).2).files_deleted = st.files_deleted ∧
    ((sync_directory env T rel d st).2).dirs_deleted = st.dirs_deleted ∧
    ((sync_directory env T rel d st).2).dirs_scanned = st.dirs_scanned ∧
    ((sync_directory env T rel d st).2).dirs_changed = st.dirs_changed := by
  rw [sync_directory]
  by_cases hm : env.mkdirFails rel = true
  · simp [hm]
  · have hm' : env.mkdirFails rel = false := by
      cases hx : env.mkdirFails rel with
      | false => rfl
      | true => exact absurd hx hm
    simp only [hm', Bool.false_eq_true, if_false]
    exact dirFoldStatsFields env rel d.files (T.mkdirP rel, st)

theorem syncLoop_preserves (env : FsEnv) :
    ∀ (l : List (RPath × SrcDir)) (i : Nat) (ls : LoopState) (q : RPath),
      ls.target.fileMem q = true → ((syncLoop env l i ls).target).fileMem q = true := by
  intro l
  induction l with
  | nil => intro i ls q h; simpa [syncLoop] using h
  | cons x rest ih =>
    intro i ls q h
    obtain ⟨p, d⟩ := x
    rw [syncLoop]
    apply ih
    exact sync_directory_preserves env ls.target p d ls.stats q h

theorem syncLoop_stats (env : FsEnv) :
    ∀ (l : List (RPath × SrcDir)) (i : Nat) (ls : LoopState),
      ((syncLoop env l i ls).stats).files_deleted = ls.stats.files_deleted ∧
      ((syncLoop env l i ls).stats).dirs_deleted = ls.stats.dirs_deleted ∧
      ((syncLoop env l i ls).stats).dirs_scanned = ls.stats.dirs_scanned ∧
      ((syncLoop env l i ls).stats).dirs_changed = ls.stats.dirs_changed := by
  intro l
  induction l with
  | nil => intro i ls; simp [syncLoop]
  | cons x rest ih =>
    intro i ls
    obtain ⟨p, d⟩ := x
    rw [syncLoop]
    have h1 := ih (i + 1)
      ⟨(if d.mtime > ls.newest then d.mtime else ls.newest),
       (sync_directory env ls.target p d ls.stats).1,
       (sync_directory env ls.target p d ls.stats).2,
       (if i % 50 = 0 then ls.checkpoints ++
         [(if d.mtime > ls.newest then d.mtime else ls.newest)] else ls.checkpoints)⟩
    have h2 := sync_directory_stats env ls.target p d ls.stats
    refine ⟨?_, ?_, ?_, ?_⟩
    · rw [h1.1]; exact h2.1
    · rw [h1.2.1]; exact h2.2.1
    · rw [h1.2.2.1]; exact h2.2.2.1
    · rw [h1.2.2.2]; exact h2.2.2.2

/-! ## Reconciliation: basic equations and stats-irrelevance -/

theorem cleanup_files_eq (env : FsEnv) (sf : List RPath) (fs : List String)
    (sd : List (String × TgtDir)) (rp : RPath) (st : Stats) :
    cleanup_files env sf (.mk fs sd) rp st =
      (TgtDir.mk (removeFilesAt env sf rp fs st).1
        (cleanup_files_list env sf sd rp (removeFilesAt env sf rp fs st).2).1,
       (cleanup_files_list env sf sd rp (removeFilesAt env sf rp fs st).2).2) := by
  simp [cleanup_files]

theorem cleanup_files_list_nil (env : FsEnv) (sf : List RPath) (rp : RPath) (st : Stats) :
    cleanup_files_list env sf [] rp st = ([], st) := by
  simp [cleanup_files_list]

theorem cleanup_files_list_cons (env : FsEnv) (sf : List RPath) (n : String) (c : TgtDir)
    (rest : List (String × TgtDir)) (rp : RPath) (st : Stats) :
    cleanup_files_list env sf ((n, c) :: rest) rp st =
      ((n, (cleanup_files env sf c (rp ++ [n]) st).1) ::
        (cleanup_files_list env sf rest rp (cleanup_files env sf c (rp ++ [n]) st).2).1,
       (cleanup_files_list env sf rest rp (cleanup_files env sf c (rp ++ [n]) st).2).2) := by
  simp [cleanup_files_list]

theorem cleanup_dirs_eq (env : FsEnv) (sdirs : List RPath) (fs : List String)
    (sd : List (String × TgtDir)) (rp : RPath) (st : Stats) :
    cleanup_dirs env sdirs (.mk fs sd) rp st =
      (TgtDir.mk fs
        (check_children env sdirs rp (cleanup_dirs_list env sdirs sd rp st).1
          (cleanup_dirs_list env sdirs sd rp st).2).1,
       (check_children env sdirs rp (cleanup_dirs_list env sdirs sd rp st).1
          (cleanup_dirs_list env sdirs sd rp st).2).2) := by
  simp [cleanup_dirs]

theorem cleanup_dirs_list_nil (env : FsEnv) (sdirs : List RPath) (rp : RPath) (st : Stats) :
    cleanup_dirs_list env sdirs [] rp st = ([], st) := by
  simp [cleanup_dirs_list]

theorem cleanup_dirs_list_cons (env : FsEnv) (sdirs : List RPath) (n : String) (c : TgtDir)
    (rest : List (String × TgtDir)) (rp : RPath) (st : Stats) :
    cleanup_dirs_list env sdirs ((n, c) :: rest) rp st =
      ((n, (cleanup_dirs env sdirs c (rp ++ [n]) st).1) ::
        (cleanup_dirs_list env sdirs rest rp (cleanup_dirs env sdirs c (rp ++ [n]) st).2).1,
       (cleanup_dirs_list env sdirs rest rp (cleanup_dirs env sdirs c (rp ++ [n]) st).2).2) := by
  simp [cleanup_dirs_list]

theorem removeFilesAt_fst_st (env : FsEnv) (sf : List RPath) (rp : RPath) :
    ∀ (fs : List String) (st st' : Stats),
      (removeFilesAt env sf rp fs st).1 = (removeFilesAt env sf rp fs st').1 := by
  intro fs
  induction fs with
  | nil => intro st st'; simp [removeFilesAt]
  | cons n rest ih =>
    intro st st'
    simp only [removeFilesAt]
    by_cases h1 : (rp ++ [n]) ∈ sf
    · simp only [h1, if_true]
      rw [ih st st']
    · simp only [h1, if_false]
      by_cases h2 : env.unlinkFails (rp ++ [n]) = true
      · simp only [h2, if_true]
        rw [ih { st with errors := st.errors + 1 } { st' with errors := st'.errors + 1 }]
      · have h2' : env.unlinkFails (rp ++ [n]) = false := by
          cases hx : env.unlinkFails (rp ++ [n]) with
          | false => rfl
          | true => exact absurd hx h2
        simp only [h2', Bool.false_eq_true, if_false]
        rw [ih { st with files_deleted := st.files_deleted + 1 }
          { st' with files_deleted := st'.files_deleted + 1 }]

theorem removeFilesAt_fst_filter (env : FsEnv) (sf : List RPath) (rp : RPath) :
    ∀ (fs : List String) (st : Stats),
      (removeFilesAt env sf rp fs st).1 =
        fs.filter (fun n => decide ((rp ++ [n]) ∈ sf) || env.unlinkFails (rp ++ [n])) := by
  intro fs
  induction fs with
  | nil => intro st; simp [removeFilesAt]
  | cons n rest ih =>
    intro st
    by_cases h1 : (rp ++ [n]) ∈ sf
    · simp [removeFilesAt, h1, List.filter_cons, ih]
    · by_cases h2 : env.unlinkFails (rp ++ [n]) = true
      · simp [removeFilesAt, h1, h2, List.filter_cons, ih]
      · have h2' : env.unlinkFails (rp ++ [n]) = false := by
          cases hx : env.unlinkFails (rp ++ [n]) with
          | false => rfl
          | true => exact absurd hx h2
        simp [removeFilesAt, h1, h2', List.filter_cons, ih]

theorem removeFilesAt_all_kept (env : FsEnv) (sf : List RPath) (rp : RPath) :
    ∀ (fs : List String) (st : Stats),
      (∀ n ∈ fs, (rp ++ [n]) ∈ sf) → removeFilesAt env sf rp fs st = (fs, st) := by
  intro fs
  induction fs with
  | nil => intro st _; simp [removeFilesAt]
  | cons n rest ih =>
    intro st hall
    have h1 : (rp ++ [n]) ∈ sf := hall n (List.mem_cons_self _ _)
    simp [removeFilesAt, h1, ih st (fun n' hn' => hall n' (List.mem_cons_of_mem _ hn'))]

theorem cleanup_files_list_fst_st_of (env : FsEnv) (sf : List RPath)
    (sd : List (String × TgtDir))
    (ih : ∀ c ∈ sd, ∀ (rp : RPath) (st st' : Stats),
      (cleanup_files env sf c.2 rp st).1 = (cleanup_files env sf c.2 rp st').1) :
    ∀ (rp : RPath) (st st' : Stats),
      (cleanup_files_list env sf sd rp st).1 = (cleanup_files_list env sf sd rp st').1 := by
  induction sd with
  | nil => intro rp st st'; simp [cleanup_files_list_nil]
  | cons c rest ihl =>
    intro rp st st'
    obtain ⟨n, d⟩ := c
    rw [cleanup_files_list_cons, cleanup_files_list_cons]
    simp only []
    have e1 := ih (n, d) (List.mem_cons_self _ _) (rp ++ [n]) st st'
    have e2 := ihl (fun c hc => ih c (List.mem_cons_of_mem _ hc)) rp
      (cleanup_files env sf d (rp ++ [n]) st).2 (cleanup_files env sf d (rp ++ [n]) st').2
    rw [e1, e2]

theorem cleanup_files_fst_st (env : FsEnv) (sf : List RPath) :
    ∀ (t : TgtDir) (rp : RPath) (st st' : Stats),
      (cleanup_files env sf t rp st).1 = (cleanup_files env sf t rp st').1 := by
  intro t
  induction t using TgtDir.inductionOn_tgt with
  | h fs sd ih =>
    intro rp st st'
    rw [cleanup_files_eq, cleanup_files_eq]
    simp only []
    have e1 := removeFilesAt_fst_st env sf rp fs st st'
    have e2 := cleanup_files_list_fst_st_of env sf sd
      (fun c hc rp st st' => ih c hc rp st st') rp
      (removeFilesAt env sf rp fs st).2 (removeFilesAt env sf rp fs st').2
    rw [e1, e2]

theorem cleanup_files_list_map (env : FsEnv) (sf : List RPath) :
    ∀ (sd : List (String × TgtDir)) (rp : RPath) (st : Stats),
      (cleanup_files_list env sf sd rp st).1 =
        sd.map (fun c => (c.1, (cleanup_files env sf c.2 (rp ++ [c.1]) Stats.zero).1)) := by
  intro sd
  induction sd with
  | nil => intro rp st; simp [cleanup_files_list_nil]
  | cons c rest ih =>
    intro rp st
    obtain ⟨n, d⟩ := c
    rw [cleanup_files_list_cons]
    simp only [List.map_cons]
    have e1 := cleanup_files_fst_st env sf d (rp ++ [n]) st Stats.zero
    have e2 := ih rp (cleanup_files env sf d (rp ++ [n]) st).2
    rw [e1, e2]

theorem check_children_fst_st (env : FsEnv) (sdirs : List RPath) (rp : RPath) :
    ∀ (sd : List (String × TgtDir)) (st st' : Stats),
      (check_children env sdirs rp sd st).1 = (check_children env sdirs rp sd st').1 := by
  intro sd
  induction sd with
  | nil => intro st st'; simp [check_children]
  | cons c rest ih =>
    intro st st'
    obtain ⟨n, d⟩ := c
    simp only [check_children]
    by_cases h1 : (rp ++ [n]) ∈ sdirs
    · simp only [h1, if_true]
      rw [ih st st']
    · simp only [h1, if_false]
      by_cases h2 : d.isEmptyNode = true
      · simp only [h2, if_true]
        by_cases h3 : env.rmdirFails (rp ++ [n]) = true
        · simp only [h3, if_true]
          rw [ih { st with errors := st.errors + 1 } { st' with errors := st'.errors + 1 }]
        · have h3' : env.rmdirFails (rp ++ [n]) = false := by
            cases hx : env.rmdirFails (rp ++ [n]) with
            | false => rfl
            | true => exact absurd hx h3
          simp only [h3', Bool.false_eq_true, if_false]
          rw [ih { st with dirs_deleted := st.dirs_deleted + 1 }
            { st' with dirs_deleted := st'.dirs_deleted + 1 }]
      · have h2' : d.isEmptyNode = false := by
          cases hx : d.isEmptyNode with
          | false => rfl
          | true => exact absurd hx h2
        simp only [h2', Bool.false_eq_true, if_false]
        rw [ih st st']

theorem check_children_fst_filter (env : FsEnv) (sdirs : List RPath) (rp : RPath) :
    ∀ (sd : List (String × TgtDir)) (st : Stats),
      (check_children env sdirs rp sd st).1 =
        sd.filter (fun c => decide ((rp ++ [c.1]) ∈ sdirs) || !c.2.isEmptyNode ||
          env.rmdirFails (rp ++ [c.1])) := by
  intro sd
  induction sd with
  | nil => intro st; simp [check_children]
  | cons c rest ih =>
    intro st
    obtain ⟨n, d⟩ := c
    by_cases h1 : (rp ++ [n]) ∈ sdirs
    · simp [check_children, h1, List.filter_cons, ih]
    · by_cases h2 : d.isEmptyNode = true
      · by_cases h3 : env.rmdirFails (rp ++ [n]) = true
        · simp [check_children, h1, h2, h3, List.filter_cons, ih]
        · have h3' : env.rmdirFails (rp ++ [n]) = false := by
            cases hx : env.rmdirFails (rp ++ [n]) with
            | false => rfl
            | true => exact absurd hx h3
          simp [check_children, h1, h2, h3', List.filter_cons, ih]
      · have h2' : d.isEmptyNode = false := by
          cases hx : d.isEmptyNode with
          | false => rfl
          | true => exact absurd hx h2
        simp [check_children, h1, h2', List.filter_cons, ih]

theorem check_children_all_in (env : FsEnv) (sdirs : List RPath) (rp : RPath) :
    ∀ (sd : List (String × TgtDir)) (st : Stats),
      (∀ c ∈ sd, (rp ++ [c.1]) ∈ sdirs) → check_children env sdirs rp sd st = (sd, st) := by
  intro sd
  induction sd with
  | nil => intro st _; simp [check_children]
  | cons c rest ih =>
    intro st hall
    obtain ⟨n, d⟩ := c
    have h1 : (rp ++ [n]) ∈ sdirs := hall (n, d) (List.mem_cons_self _ _)
    simp [check_children, h1, ih st (fun c hc => hall c (List.mem_cons_of_mem _ hc))]

theorem cleanup_dirs_list_fst_st_of (env : FsEnv) (sdirs : List RPath)
    (sd : List (String × TgtDir))
    (ih : ∀ c ∈ sd, ∀ (rp : RPath) (st st' : Stats),
      (cleanup_dirs env sdirs c.2 rp st).1 = (cleanup_dirs env sdirs c.2 rp st').1) :
    ∀ (rp : RPath) (st st' : Stats),
      (cleanup_dirs_list env sdirs sd rp st).1 = (cleanup_dirs_list env sdirs sd rp st').1 := by
  induction sd with
  | nil => intro rp st st'; simp [cleanup_dirs_list_nil]
  | cons c rest ihl =>
    intro rp st st'
    obtain ⟨n, d⟩ := c
    rw [cleanup_dirs_list_cons, cleanup_dirs_list_cons]
    simp only []
    have e1 := ih (n, d) (List.mem_cons_self _ _) (rp ++ [n]) st st'
    have e2 := ihl (fun c hc => ih c (List.mem_cons_of_mem _ hc)) rp
      (cleanup_dirs env sdirs d (rp ++ [n]) st).2 (cleanup_dirs env sdirs d (rp ++ [n]) st').2
    rw [e1, e2]

theorem cleanup_dirs_fst_st (env : FsEnv) (sdirs : List RPath) :
    ∀ (t : TgtDir) (rp : RPath) (st st' : Stats),
      (cleanup_dirs env sdirs t rp st).1 = (cleanup_dirs env sdirs t rp st').1 := by
  intro t
  induction t using TgtDir.inductionOn_tgt with
  | h fs sd ih =>
    intro rp st st'
    rw [cleanup_dirs_eq, cleanup_dirs_eq]
    simp only []
    have hlist : (cleanup_dirs_list env sdirs sd rp st).1 =
        (cleanup_dirs_list env sdirs sd rp st').1 :=
      cleanup_dirs_list_fst_st_of env sdirs sd (fun c hc rp st st' => ih c hc rp st st') rp st st'
    rw [hlist]
    rw [check_children_fst_st env sdirs rp _ _
      (cleanup_dirs_list env sdirs sd rp st').2]

theorem cleanup_dirs_list_map (env : FsEnv) (sdirs : List RPath) :
    ∀ (sd : List (String × TgtDir)) (rp : RPath) (st : Stats),
      (cleanup_dirs_list env sdirs sd rp st).1 =
        sd.map (fun c => (c.1, (cleanup_dirs env sdirs c.2 (rp ++ [c.1]) Stats.zero).1)) := by
  intro sd
  induction sd with
  | nil => intro rp st; simp [cleanup_dirs_list_nil]
  | cons c rest ih =>
    intro rp st
    obtain ⟨n, d⟩ := c
    rw [cleanup_dirs_list_cons]
    simp only [List.map_cons]
    have e1 := cleanup_dirs_fst_st env sdirs d (rp ++ [n]) st Stats.zero
    have e2 := ih rp (cleanup_dirs env sdirs d (rp ++ [n]) st).2
    rw [e1, e2]

/-! ## Source path sets: closure properties -/

theorem walk_paths_closed (t : SrcDir) :
    ∀ (base q r : RPath), (∃ d, (base ++ (q ++ r), d) ∈ t.walk base) →
      ∃ d', (base ++ q, d') ∈ t.walk base := by
  induction t using SrcDir.inductionOn with
  | h m fs sd ih =>
    intro base q r hex
    obtain ⟨d, hd⟩ := hex
    rw [SrcDir.walk_eq] at hd
    rcases List.mem_cons.mp hd with h1 | h1
    · have hfst : base ++ (q ++ r) = base := by
        have := congrArg Prod.fst h1
        simpa using this
      have hqr : q ++ r = [] := by
        have h2 : base ++ (q ++ r) = base ++ [] := by
          simpa using hfst
        exact List.append_cancel_left h2
      have hq : q = [] := (List.append_eq_nil.mp hqr).1
      subst hq
      refine ⟨SrcDir.mk m fs sd, ?_⟩
      rw [SrcDir.walk_eq]
      simp
    · obtain ⟨c, hc, hmem⟩ := (mem_walkList _ _).mp h1
      obtain ⟨s, hs⟩ := walk_path_shape c.2 _ _ hmem
      have heq : q ++ r = [c.1] ++ s := by
        have h2 : base ++ (q ++ r) = base ++ ([c.1] ++ s) := by
          simp only [← List.append_assoc]
          simpa using hs
        exact List.append_cancel_left h2
      cases q with
      | nil =>
        refine ⟨SrcDir.mk m fs sd, ?_⟩
        rw [SrcDir.walk_eq]
        simp
      | cons a q' =>
        have ha : a = c.1 := by
          have := congrArg (fun l => l.headI) heq
          simpa using this
        have hq' : q' ++ r = s := by
          have h2 : a :: (q' ++ r) = c.1 :: s := by
            simpa using heq
          exact (List.cons.injEq _ _ _ _).mp h2 |>.2
        have hm2 : (base ++ [c.1] ++ (q' ++ r), d) ∈ c.2.walk (base ++ [c.1]) := by
          have hpath : base ++ (a :: q' ++ r) = base ++ [c.1] ++ (q' ++ r) := by
            subst ha
            simp
          rw [hpath] at hmem
          rw [hq'] at hmem ⊢
          exact hmem
        obtain ⟨d', hd'⟩ := ih c hc (base ++ [c.1]) q' r ⟨d, hm2⟩
        refine ⟨d', ?_⟩
        rw [SrcDir.walk_eq]
        apply List.mem_cons_of_mem
        rw [mem_walkList]
        refine ⟨c, hc, ?_⟩
        have hpath2 : base ++ a :: q' = base ++ [c.1] ++ q' := by
          subst ha
          simp
        rw [hpath2]
        exact hd'

theorem mem_sourceDirsOf (S : SrcDir) (p : RPath) :
    p ∈ sourceDirsOf S ↔ (∃ d, (p, d) ∈ S.walk []) ∧ p ≠ [] := by
  simp only [sourceDirsOf, List.mem_filter, List.mem_map]
  constructor
  · rintro ⟨⟨x, hx, rfl⟩, hne⟩
    refine ⟨⟨x.2, ?_⟩, ?_⟩
    · simpa using hx
    · simpa using hne
  · rintro ⟨⟨d, hd⟩, hne⟩
    refine ⟨⟨(p, d), hd, rfl⟩, ?_⟩
    simpa using hne

theorem sourceDirsOf_closed (S : SrcDir) (q r : RPath)
    (h : (q ++ r) ∈ sourceDirsOf S) (hq : q ≠ []) : q ∈ sourceDirsOf S := by
  rw [mem_sourceDirsOf] at h
  obtain ⟨⟨d, hd⟩, _⟩ := h
  have hex : ∃ d, ([] ++ (q ++ r), d) ∈ S.walk [] := ⟨d, by simpa using hd⟩
  obtain ⟨d', hd'⟩ := walk_paths_closed S [] q r hex
  rw [mem_sourceDirsOf]
  exact ⟨⟨d', by simpa using hd'⟩, hq⟩

theorem mem_sourceFilesOf (S : SrcDir) (x : RPath) :
    x ∈ sourceFilesOf S ↔
      ∃ y ∈ S.walk [], ∃ f ∈ y.2.files, x = y.1 ++ [f.name] := by
  simp only [sourceFilesOf, List.mem_flatMap, List.mem_map]
  constructor
  · rintro ⟨y, hy, f, hf, rfl⟩
    exact ⟨y, hy, f, hf, rfl⟩
  · rintro ⟨y, hy, f, hf, rfl⟩
    exact ⟨y, hy, f, hf, rfl⟩

theorem sourceFilesOf_parent (S : SrcDir) (x : RPath) (h : x ∈ sourceFilesOf S) :
    ∃ q n, x = q ++ [n] ∧ (q = [] ∨ q ∈ sourceDirsOf S) := by
  rw [mem_sourceFilesOf] at h
  obtain ⟨y, hy, f, hf, rfl⟩ := h
  refine ⟨y.1, f.name, rfl, ?_⟩
  by_cases hq : y.1 = []
  · left; exact hq
  · right
    rw [mem_sourceDirsOf]
    exact ⟨⟨y.2, by simpa using hy⟩, hq⟩

theorem root_file_mem_sourceFilesOf (S : SrcDir) (f : SrcFile) (hf : f ∈ S.files) :
    [f.name] ∈ sourceFilesOf S := by
  rw [mem_sourceFilesOf]
  refine ⟨([], S), self_mem_walk S [], f, hf, rfl⟩

/-! ## Reconciliation: membership preservation -/

theorem find_name_map (sd : List (String × TgtDir)) (g : String × TgtDir → TgtDir)
    (n : String) :
    (sd.map (fun c => (c.1, g c))).find? (fun x => x.1 == n) =
      (sd.find? (fun x => x.1 == n)).map (fun c => (c.1, g c)) := by
  rw [List.find?_map]
  rfl

theorem find_filter_of_pred (pred : String × TgtDir → Bool) (n : String) :
    ∀ (l : List (String × TgtDir)) (x : String × TgtDir),
      l.find? (fun y => y.1 == n) = some x → pred x = true →
      (l.filter pred).find? (fun y => y.1 == n) = some x := by
  intro l
  induction l with
  | nil => intro x hf _; simp [List.find?] at hf
  | cons c rest ih =>
    intro x hf hp
    by_cases hc : (c.1 == n) = true
    · have hcx : c = x := by
        simp [List.find?, hc] at hf
        exact hf
      subst hcx
      rw [List.filter_cons, if_pos hp]
      simp [List.find?, hc]
    · have hc' : (c.1 == n) = false := by
        cases hx : (c.1 == n) with
        | false => rfl
        | true => exact absurd hx hc
      have hf' : rest.find? (fun y => y.1 == n) = some x := by
        simpa [List.find?, hc'] using hf
      rw [List.filter_cons]
      by_cases hpc : pred c = true
      · rw [if_pos hpc]
        have goal2 := ih x hf' hp
        simpa [List.find?, hc'] using goal2
      · rw [if_neg hpc]
        exact ih x hf' hp

theorem TgtDir.fileMem_not_empty (c : TgtDir) (q : RPath) (h : c.fileMem q = true) :
    c.isEmptyNode = false := by
  cases c with
  | mk fs sd =>
    cases q with
    | nil => rw [TgtDir.fileMem_nil_path] at h; exact absurd h (by simp)
    | cons a rest =>
      cases rest with
      | nil =>
        rw [TgtDir.fileMem_single] at h
        have : a ∈ fs := (list_contains_iff _ _).mp (by simpa using h)
        have hne : fs ≠ [] := List.ne_nil_of_mem this
        simp [TgtDir.isEmptyNode, List.isEmpty_iff, hne]
      | cons b bs =>
        rw [TgtDir.fileMem_cons _ _ _ (by simp)] at h
        cases hc : (TgtDir.mk fs sd).child? a with
        | none => rw [hc] at h; exact absurd h (by simp)
        | some c' =>
          have hmem : ∃ e, e ∈ sd := by
            simp only [TgtDir.child?, TgtDir.subdirs_mk_tgt] at hc
            cases hf : sd.find? (fun x => x.1 == a) with
            | none => rw [hf] at hc; simp at hc
            | some e => exact ⟨e, List.mem_of_find?_eq_some hf⟩
          obtain ⟨e, he⟩ := hmem
          have hne : sd ≠ [] := List.ne_nil_of_mem he
          simp [TgtDir.isEmptyNode, List.isEmpty_iff, hne]

theorem TgtDir.dirMem_not_empty (c : TgtDir) (n : String) (q : RPath)
    (h : c.dirMem (n :: q) = true) : c.isEmptyNode = false := by
  cases c with
  | mk fs sd =>
    rw [TgtDir.dirMem_cons] at h
    cases hc : (TgtDir.mk fs sd).child? n with
    | none => rw [hc] at h; exact absurd h (by simp)
    | some c' =>
      have hmem : ∃ e, e ∈ sd := by
        simp only [TgtDir.child?, TgtDir.subdirs_mk_tgt] at hc
        cases hf : sd.find? (fun x => x.1 == n) with
        | none => rw [hf] at hc; simp at hc
        | some e => exact ⟨e, List.mem_of_find?_eq_some hf⟩
      obtain ⟨e, he⟩ := hmem
      have hne : sd ≠ [] := List.ne_nil_of_mem he
      simp [TgtDir.isEmptyNode, List.isEmpty_iff, hne]

theorem cleanup_files_dirMem (env : FsEnv) (sf : List RPath) :
    ∀ (t : TgtDir) (rp : RPath) (st : Stats) (p : RPath),
      ((cleanup_files env sf t rp st).1).dirMem p = t.dirMem p := by
  intro t
  induction t using TgtDir.inductionOn_tgt with
  | h fs sd ih =>
    intro rp st p
    rw [cleanup_files_eq]
    simp only []
    cases p with
    | nil => simp [TgtDir.dirMem]
    | cons n rest =>
      rw [TgtDir.dirMem_cons, TgtDir.dirMem_cons]
      simp only [TgtDir.child?, TgtDir.subdirs_mk_tgt]
      rw [cleanup_files_list_map env sf sd rp, find_name_map]
      cases hf : sd.find? (fun x => x.1 == n) with
      | none => simp
      | some x =>
        simp only [Option.map_some']
        exact ih x (List.mem_of_find?_eq_some hf) (rp ++ [x.1]) Stats.zero rest

theorem cleanup_files_keeps (env : FsEnv) (sf : List RPath) :
    ∀ (t : TgtDir) (rp : RPath) (st : Stats) (p : RPath),
      t.fileMem p = true → (rp ++ p) ∈ sf →
      ((cleanup_files env sf t rp st).1).fileMem p = true := by
  intro t
  induction t using TgtDir.inductionOn_tgt with
  | h fs sd ih =>
    intro rp st p hf hmem
    rw [cleanup_files_eq]
    simp only []
    cases p with
    | nil => rw [TgtDir.fileMem_nil_path] at hf; exact absurd hf (by simp)
    | cons m rest =>
      cases rest with
      | nil =>
        rw [TgtDir.fileMem_single] at hf ⊢
        simp only [TgtDir.files_mk_tgt] at hf
        rw [TgtDir.files_mk_tgt]
        rw [removeFilesAt_fst_filter]
        rw [list_contains_iff] at hf ⊢
        rw [List.mem_filter]
        refine ⟨hf, ?_⟩
        simp [hmem]
      | cons a as =>
        rw [TgtDir.fileMem_cons _ _ _ (by simp)] at hf ⊢
        simp only [TgtDir.child?, TgtDir.subdirs_mk_tgt] at hf ⊢
        rw [cleanup_files_list_map env sf sd rp, find_name_map]
        cases hfind : sd.find? (fun x => x.1 == m) with
        | none => rw [hfind] at hf; simp at hf
        | some x =>
          rw [hfind] at hf
          simp only [Option.map_some'] at hf ⊢
          have hx1 : x.1 = m := by
            have := List.find?_some hfind
            simpa using this
          apply ih x (List.mem_of_find?_eq_some hfind) (rp ++ [x.1]) Stats.zero
          · exact hf
          · rw [hx1]
            have : rp ++ [m] ++ (a :: as) = rp ++ m :: a :: as := by
              simp
            rw [this]
            exact hmem

theorem cleanup_dirs_keeps_file (env : FsEnv) (sdirs : List RPath) :
    ∀ (t : TgtDir) (rp : RPath) (st : Stats) (p : RPath),
      t.fileMem p = true →
      ((cleanup_dirs env sdirs t rp st).1).fileMem p = true := by
  intro t
  induction t using TgtDir.inductionOn_tgt with
  | h fs sd ih =>
    intro rp st p hf
    rw [cleanup_dirs_eq]
    simp only []
    cases p with
    | nil => rw [TgtDir.fileMem_nil_path] at hf; exact absurd hf (by simp)
    | cons m rest =>
      cases rest with
      | nil =>
        rw [TgtDir.fileMem_single] at hf ⊢
        simpa using hf
      | cons a as =>
        rw [TgtDir.fileMem_cons _ _ _ (by simp)] at hf ⊢
        simp only [TgtDir.child?, TgtDir.subdirs_mk_tgt] at hf ⊢
        rw [check_children_fst_filter, cleanup_dirs_list_map env sdirs sd rp]
        cases hfind : sd.find? (fun x => x.1 == m) with
        | none => rw [hfind] at hf; simp at hf
        | some x =>
          rw [hfind] at hf
          simp only [] at hf
          have hrec : ((cleanup_dirs env sdirs x.2 (rp ++ [x.1]) Stats.zero).1).fileMem
              (a :: as) = true :=
            ih x (List.mem_of_find?_eq_some hfind) (rp ++ [x.1]) Stats.zero (a :: as) hf
          have hfil := find_filter_of_pred
            (fun c => decide ((rp ++ [c.1]) ∈ sdirs) || !c.2.isEmptyNode ||
              env.rmdirFails (rp ++ [c.1])) m
            (sd.map (fun c => (c.1, (cleanup_dirs env sdirs c.2 (rp ++ [c.1]) Stats.zero).1)))
            (x.1, (cleanup_dirs env sdirs x.2 (rp ++ [x.1]) Stats.zero).1)
            (by rw [find_name_map, hfind]; simp)
            (by
              have hne := TgtDir.fileMem_not_empty _ _ hrec
              simp [hne])
          rw [hfil]
          simpa using hrec

theorem cleanup_dirs_keeps_dir (env : FsEnv) (sdirs : List RPath)
    (hclosure : ∀ q r, (q ++ r) ∈ sdirs → q ≠ [] → q ∈ sdirs) :
    ∀ (t : TgtDir) (rp : RPath) (st : Stats) (p : RPath),
      t.dirMem p = true → (rp ++ p) ∈ sdirs →
      ((cleanup_dirs env sdirs t rp st).1).dirMem p = true := by
  intro t
  induction t using TgtDir.inductionOn_tgt with
  | h fs sd ih =>
    intro rp st p hd hmem
    rw [cleanup_dirs_eq]
    simp only []
    cases p with
    | nil => simp [TgtDir.dirMem]
    | cons m rest =>
      rw [TgtDir.dirMem_cons] at hd ⊢
      simp only [TgtDir.child?, TgtDir.subdirs_mk_tgt] at hd ⊢
      rw [check_children_fst_filter, cleanup_dirs_list_map env sdirs sd rp]
      cases hfind : sd.find? (fun x => x.1 == m) with
      | none => rw [hfind] at hd; simp at hd
      | some x =>
        rw [hfind] at hd
        simp only [] at hd
        have hx1 : x.1 = m := by
          have := List.find?_some hfind
          simpa using this
        have hrelmem : (rp ++ [m]) ∈ sdirs := by
          apply hclosure (rp ++ [m]) rest _ (by simp)
          have : rp ++ [m] ++ rest = rp ++ m :: rest := by
            simp
          rw [this]
          exact hmem
        have hrec : ((cleanup_dirs env sdirs x.2 (rp ++ [x.1]) Stats.zero).1).dirMem
            rest = true := by
          apply ih x (List.mem_of_find?_eq_some hfind) (rp ++ [x.1]) Stats.zero rest hd
          rw [hx1]
          have : rp ++ [m] ++ rest = rp ++ m :: rest := by
            simp
          rw [this]
          exact hmem
        have hfil := find_filter_of_pred
          (fun c => decide ((rp ++ [c.1]) ∈ sdirs) || !c.2.isEmptyNode ||
            env.rmdirFails (rp ++ [c.1])) m
          (sd.map (fun c => (c.1, (cleanup_dirs env sdirs c.2 (rp ++ [c.1]) Stats.zero).1)))
          (x.1, (cleanup_dirs env sdirs x.2 (rp ++ [x.1]) Stats.zero).1)
          (by rw [find_name_map, hfind]; simp)
          (by
            rw [hx1]
            simp [hrelmem])
        rw [hfil]
        simpa using hrec

theorem cleanup_target_keeps_file (env : FsEnv) (S : SrcDir) (T : TgtDir) (st : Stats)
    (p : RPath) (hf : T.fileMem p = true) (hmem : p ∈ sourceFilesOf S) :
    ((cleanup_target env S T st).1).fileMem p = true := by
  rw [cleanup_target]
  apply cleanup_dirs_keeps_file
  apply cleanup_files_keeps env (sourceFilesOf S) T [] st p hf
  simpa using hmem

theorem cleanup_target_keeps_dir (env : FsEnv) (S : SrcDir) (T : TgtDir) (st : Stats)
    (p : RPath) (hd : T.dirMem p = true) (hmem : p ∈ sourceDirsOf S) :
    ((cleanup_target env S T st).1).dirMem p = true := by
  rw [cleanup_target]
  apply cleanup_dirs_keeps_dir env (sourceDirsOf S)
    (fun q r hqr hq => sourceDirsOf_closed S q r hqr hq)
  · rw [cleanup_files_dirMem]
    exact hd
  · simpa using hmem

/-! ## Reconciliation: identity on fully-mirrored targets -/

theorem TgtDir.filesBelowInList_iff (sf : List RPath) (sd : List (String × TgtDir))
    (rp : RPath) :
    TgtDir.filesBelowInList sf sd rp = true ↔
      ∀ c ∈ sd, TgtDir.filesBelowIn sf c.2 (rp ++ [c.1]) = true := by
  induction sd with
  | nil => simp [TgtDir.filesBelowInList]
  | cons c rest ih =>
    obtain ⟨n, d⟩ := c
    simp [TgtDir.filesBelowInList, ih]

theorem TgtDir.filesBelowIn_mk (sf : List RPath) (fs : List String)
    (sd : List (String × TgtDir)) (rp : RPath) :
    TgtDir.filesBelowIn sf (.mk fs sd) rp = true ↔
      (∀ n ∈ fs, (rp ++ [n]) ∈ sf) ∧
        ∀ c ∈ sd, TgtDir.filesBelowIn sf c.2 (rp ++ [c.1]) = true := by
  rw [show TgtDir.filesBelowIn sf (.mk fs sd) rp =
    (fs.all (fun n => decide ((rp ++ [n]) ∈ sf)) &&
      TgtDir.filesBelowInList sf sd rp) from by simp [TgtDir.filesBelowIn]]
  rw [Bool.and_eq_true, TgtDir.filesBelowInList_iff]
  simp [List.all_eq_true]

theorem TgtDir.dirsBelowInList_iff (sdirs : List RPath) (sd : List (String × TgtDir))
    (rp : RPath) :
    TgtDir.dirsBelowInList sdirs sd rp = true ↔
      ∀ c ∈ sd, TgtDir.dirsBelowIn sdirs c.2 (rp ++ [c.1]) = true := by
  induction sd with
  | nil => simp [TgtDir.dirsBelowInList]
  | cons c rest ih =>
    obtain ⟨n, d⟩ := c
    simp [TgtDir.dirsBelowInList, ih]

theorem TgtDir.dirsBelowIn_mk (sdirs : List RPath) (fs : List String)
    (sd : List (String × TgtDir)) (rp : RPath) :
    TgtDir.dirsBelowIn sdirs (.mk fs sd) rp = true ↔
      (∀ c ∈ sd, (rp ++ [c.1]) ∈ sdirs) ∧
        ∀ c ∈ sd, TgtDir.dirsBelowIn sdirs c.2 (rp ++ [c.1]) = true := by
  rw [show TgtDir.dirsBelowIn sdirs (.mk fs sd) rp =
    (sd.all (fun c => decide ((rp ++ [c.1]) ∈ sdirs)) &&
      TgtDir.dirsBelowInList sdirs sd rp) from by simp [TgtDir.dirsBelowIn]]
  rw [Bool.and_eq_true, TgtDir.dirsBelowInList_iff]
  simp [List.all_eq_true]

theorem TgtDir.noFilesList_iff (sd : List (String × TgtDir)) :
    TgtDir.noFilesList sd = true ↔ ∀ c ∈ sd, TgtDir.noFiles c.2 = true := by
  induction sd with
  | nil => simp [TgtDir.noFilesList]
  | cons c rest ih =>
    obtain ⟨n, d⟩ := c
    simp [TgtDir.noFilesList, ih]

theorem TgtDir.noFiles_mk (fs : List String) (sd : List (String × TgtDir)) :
    TgtDir.noFiles (.mk fs sd) = true ↔
      fs = [] ∧ ∀ c ∈ sd, TgtDir.noFiles c.2 = true := by
  rw [show TgtDir.noFiles (.mk fs sd) = (fs.isEmpty && TgtDir.noFilesList sd) from by
    simp [TgtDir.noFiles]]
  rw [Bool.and_eq_true, TgtDir.noFilesList_iff]
  simp [List.isEmpty_iff]

theorem cleanup_files_list_id_of (env : FsEnv) (sf : List RPath)
    (sd : List (String × TgtDir))
    (ih : ∀ c ∈ sd, ∀ (rp : RPath) (st : Stats),
      TgtDir.filesBelowIn sf c.2 rp = true → cleanup_files env sf c.2 rp st = (c.2, st)) :
    ∀ (rp : RPath) (st : Stats),
      (∀ c ∈ sd, TgtDir.filesBelowIn sf c.2 (rp ++ [c.1]) = true) →
      cleanup_files_list env sf sd rp st = (sd, st) := by
  induction sd with
  | nil => intro rp st _; simp [cleanup_files_list_nil]
  | cons c rest ihl =>
    intro rp st hall
    obtain ⟨n, d⟩ := c
    rw [cleanup_files_list_cons]
    rw [ih (n, d) (List.mem_cons_self _ _) (rp ++ [n]) st
      (hall (n, d) (List.mem_cons_self _ _))]
    rw [ihl (fun c hc => ih c (List.mem_cons_of_mem _ hc)) rp st
      (fun c hc => hall c (List.mem_cons_of_mem _ hc))]

theorem cleanup_files_id (env : FsEnv) (sf : List RPath) :
    ∀ (t : TgtDir) (rp : RPath) (st : Stats),
      TgtDir.filesBelowIn sf t rp = true → cleanup_files env sf t rp st = (t, st) := by
  intro t
  induction t using TgtDir.inductionOn_tgt with
  | h fs sd ih =>
    intro rp st hbelow
    rw [TgtDir.filesBelowIn_mk] at hbelow
    rw [cleanup_files_eq]
    rw [removeFilesAt_all_kept env sf rp fs st hbelow.1]
    rw [cleanup_files_list_id_of env sf sd (fun c hc => ih c hc) rp st hbelow.2]

theorem cleanup_dirs_list_id_of (env : FsEnv) (sdirs : List RPath)
    (sd : List (String × TgtDir))
    (ih : ∀ c ∈ sd, ∀ (rp : RPath) (st : Stats),
      TgtDir.dirsBelowIn sdirs c.2 rp = true → cleanup_dirs env sdirs c.2 rp st = (c.2, st)) :
    ∀ (rp : RPath) (st : Stats),
      (∀ c ∈ sd, TgtDir.dirsBelowIn sdirs c.2 (rp ++ [c.1]) = true) →
      cleanup_dirs_list env sdirs sd rp st = (sd, st) := by
  induction sd with
  | nil => intro rp st _; simp [cleanup_dirs_list_nil]
  | cons c rest ihl =>
    intro rp st hall
    obtain ⟨n, d⟩ := c
    rw [cleanup_dirs_list_cons]
    rw [ih (n, d) (List.mem_cons_self _ _) (rp ++ [n]) st
      (hall (n, d) (List.mem_cons_self _ _))]
    rw [ihl (fun c hc => ih c (List.mem_cons_of_mem _ hc)) rp st
      (fun c hc => hall c (List.mem_cons_of_mem _ hc))]

theorem cleanup_dirs_id (env : FsEnv) (sdirs : List RPath) :
    ∀ (t : TgtDir) (rp : RPath) (st : Stats),
      TgtDir.dirsBelowIn sdirs t rp = true → cleanup_dirs env sdirs t rp st = (t, st) := by
  intro t
  induction t using TgtDir.inductionOn_tgt with
  | h fs sd ih =>
    intro rp st hbelow
    rw [TgtDir.dirsBelowIn_mk] at hbelow
    rw [cleanup_dirs_eq]
    rw [cleanup_dirs_list_id_of env sdirs sd (fun c hc => ih c hc) rp st hbelow.2]
    rw [check_children_all_in env sdirs rp sd st hbelow.1]

theorem cleanup_target_id (env : FsEnv) (S : SrcDir) (T : TgtDir) (st : Stats)
    (hf : TgtDir.filesBelowIn (sourceFilesOf S) T [] = true)
    (hd : TgtDir.dirsBelowIn (sourceDirsOf S) T [] = true) :
    cleanup_target env S T st = (T, st) := by
  rw [cleanup_target]
  rw [cleanup_files_id env (sourceFilesOf S) T [] st hf]
  rw [cleanup_dirs_id env (sourceDirsOf S) T [] st hd]

/-! ## Reconciliation: postconditions of an error-free cleanup -/

theorem cleanup_files_post (sf : List RPath) :
    ∀ (t : TgtDir) (rp : RPath) (st : Stats),
      TgtDir.filesBelowIn sf ((cleanup_files FsEnv.clean sf t rp st).1) rp = true := by
  intro t
  induction t using TgtDir.inductionOn_tgt with
  | h fs sd ih =>
    intro rp st
    rw [cleanup_files_eq]
    simp only []
    rw [TgtDir.filesBelowIn_mk]
    constructor
    · intro n hn
      rw [removeFilesAt_fst_filter] at hn
      have hp := List.of_mem_filter hn
      have hu : FsEnv.clean.unlinkFails (rp ++ [n]) = false := rfl
      simpa [hu] using hp
    · intro c hc
      rw [cleanup_files_list_map] at hc
      obtain ⟨x, hx, rfl⟩ := List.mem_map.mp hc
      exact ih x hx (rp ++ [x.1]) Stats.zero

theorem cleanup_dirs_filesBelowIn (env : FsEnv) (sdirs sf : List RPath) :
    ∀ (t : TgtDir) (rp : RPath) (st : Stats),
      TgtDir.filesBelowIn sf t rp = true →
      TgtDir.filesBelowIn sf ((cleanup_dirs env sdirs t rp st).1) rp = true := by
  intro t
  induction t using TgtDir.inductionOn_tgt with
  | h fs sd ih =>
    intro rp st hb
    rw [TgtDir.filesBelowIn_mk] at hb
    rw [cleanup_dirs_eq]
    simp only []
    rw [TgtDir.filesBelowIn_mk]
    constructor
    · exact hb.1
    · intro c hc
      rw [check_children_fst_filter, cleanup_dirs_list_map] at hc
      have hc2 := List.mem_of_mem_filter hc
      obtain ⟨x, hx, rfl⟩ := List.mem_map.mp hc2
      exact ih x hx (rp ++ [x.1]) Stats.zero (hb.2 x hx)

theorem noFiles_of_below (sf sdirs : List RPath)
    (hpar : ∀ x ∈ sf, ∃ q n, x = q ++ [n] ∧ (q = [] ∨ q ∈ sdirs))
    (hclosure : ∀ q r, (q ++ r) ∈ sdirs → q ≠ [] → q ∈ sdirs) :
    ∀ (t : TgtDir) (rp : RPath),
      TgtDir.filesBelowIn sf t rp = true → rp ∉ sdirs → rp ≠ [] →
      t.noFiles = true := by
  intro t
  induction t using TgtDir.inductionOn_tgt with
  | h fs sd ih =>
    intro rp hb hrp hne
    rw [TgtDir.filesBelowIn_mk] at hb
    rw [TgtDir.noFiles_mk]
    constructor
    · by_contra hfs
      obtain ⟨n, hn⟩ := List.exists_mem_of_ne_nil fs hfs
      have hmem := hb.1 n hn
      obtain ⟨q, m, heq, hq⟩ := hpar _ hmem
      have hqrp : rp = q := by
        have := congrArg List.dropLast heq
        simpa [List.dropLast_concat] using this
      rcases hq with hq | hq
      · rw [hqrp] at hne
        exact hne hq
      · rw [← hqrp] at hq
        exact hrp hq
    · intro c hc
      apply ih c hc (rp ++ [c.1]) (hb.2 c hc)
      · intro hin
        exact hrp (hclosure rp [c.1] hin hne)
      · simp

theorem cleanup_dirs_empties (sdirs : List RPath) :
    ∀ (t : TgtDir) (rp : RPath) (st : Stats),
      t.noFiles = true → (∀ q, q ≠ [] → (rp ++ q) ∉ sdirs) →
      ((cleanup_dirs FsEnv.clean sdirs t rp st).1).isEmptyNode = true := by
  intro t
  induction t using TgtDir.inductionOn_tgt with
  | h fs sd ih =>
    intro rp st hnf hnone
    rw [TgtDir.noFiles_mk] at hnf
    rw [cleanup_dirs_eq]
    simp only []
    rw [check_children_fst_filter, cleanup_dirs_list_map]
    have hfilter : (sd.map (fun c =>
        (c.1, (cleanup_dirs FsEnv.clean sdirs c.2 (rp ++ [c.1]) Stats.zero).1))).filter
        (fun c => decide ((rp ++ [c.1]) ∈ sdirs) || !c.2.isEmptyNode ||
          FsEnv.clean.rmdirFails (rp ++ [c.1])) = [] := by
      rw [List.filter_eq_nil_iff]
      intro x hx
      obtain ⟨c, hc, rfl⟩ := List.mem_map.mp hx
      have h1 : (rp ++ [c.1]) ∉ sdirs := hnone [c.1] (by simp)
      have h2 : ((cleanup_dirs FsEnv.clean sdirs c.2 (rp ++ [c.1]) Stats.zero).1).isEmptyNode
          = true := by
        apply ih c hc (rp ++ [c.1]) Stats.zero (hnf.2 c hc)
        intro q hq hin
        apply hnone ([c.1] ++ q) (by simp)
        rw [List.append_assoc] at hin
        exact hin
      have h3 : FsEnv.clean.rmdirFails (rp ++ [c.1]) = false := rfl
      simp [h1, h2, h3]
    rw [hfilter]
    simp [TgtDir.isEmptyNode, hnf.1]

theorem cleanup_dirs_post (sf sdirs : List RPath)
    (hpar : ∀ x ∈ sf, ∃ q n, x = q ++ [n] ∧ (q = [] ∨ q ∈ sdirs))
    (hclosure : ∀ q r, (q ++ r) ∈ sdirs → q ≠ [] → q ∈ sdirs) :
    ∀ (t : TgtDir) (rp : RPath) (st : Stats),
      TgtDir.filesBelowIn sf t rp = true →
      TgtDir.dirsBelowIn sdirs ((cleanup_dirs FsEnv.clean sdirs t rp st).1) rp = true := by
  intro t
  induction t using TgtDir.inductionOn_tgt with
  | h fs sd ih =>
    intro rp st hb
    rw [TgtDir.filesBelowIn_mk] at hb
    rw [cleanup_dirs_eq]
    simp only []
    rw [TgtDir.dirsBelowIn_mk]
    rw [check_children_fst_filter, cleanup_dirs_list_map]
    have hkept : ∀ x ∈ (sd.map (fun c =>
        (c.1, (cleanup_dirs FsEnv.clean sdirs c.2 (rp ++ [c.1]) Stats.zero).1))).filter
        (fun c => decide ((rp ++ [c.1]) ∈ sdirs) || !c.2.isEmptyNode ||
          FsEnv.clean.rmdirFails (rp ++ [c.1])),
        (rp ++ [x.1]) ∈ sdirs ∧ ∃ c ∈ sd, x =
          (c.1, (cleanup_dirs FsEnv.clean sdirs c.2 (rp ++ [c.1]) Stats.zero).1) := by
      intro x hx
      have hp := List.of_mem_filter hx
      have hm := List.mem_of_mem_filter hx
      obtain ⟨c, hc, rfl⟩ := List.mem_map.mp hm
      refine ⟨?_, c, hc, rfl⟩
      by_contra h1
      have h2 : ((cleanup_dirs FsEnv.clean sdirs c.2 (rp ++ [c.1]) Stats.zero).1).isEmptyNode
          = true := by
        apply cleanup_dirs_empties sdirs c.2 (rp ++ [c.1]) Stats.zero
        · apply noFiles_of_below sf sdirs hpar hclosure c.2 (rp ++ [c.1])
            (hb.2 c hc) h1 (by simp)
        · intro q hq hin
          apply h1
          apply hclosure (rp ++ [c.1]) q _ (by simp)
          exact hin
      have h3 : FsEnv.clean.rmdirFails (rp ++ [c.1]) = false := rfl
      simp [h1, h2, h3] at hp
    constructor
    · intro x hx
      exact (hkept x hx).1
    · intro x hx
      obtain ⟨_, c, hc, rfl⟩ := hkept x hx
      exact ih c hc (rp ++ [c.1]) Stats.zero (hb.2 c hc)

theorem cleanup_target_post (S : SrcDir) (T : TgtDir) (st : Stats) :
    TgtDir.filesBelowIn (sourceFilesOf S) ((cleanup_target FsEnv.clean S T st).1) [] = true ∧
    TgtDir.dirsBelowIn (sourceDirsOf S) ((cleanup_target FsEnv.clean S T st).1) [] = true := by
  rw [cleanup_target]
  constructor
  · apply cleanup_dirs_filesBelowIn
    exact cleanup_files_post (sourceFilesOf S) T [] st
  · apply cleanup_dirs_post (sourceFilesOf S) (sourceDirsOf S)
      (fun x hx => sourceFilesOf_parent S x hx)
      (fun q r hqr hq => sourceDirsOf_closed S q r hqr hq)
    exact cleanup_files_post (sourceFilesOf S) T [] st

/-! ## Root sync preserves the fully-mirrored invariant -/

theorem TgtDir.insertFile_root_parts (t : TgtDir) (m : String) :
    (t.insertFile [] m).subdirs = t.subdirs ∧
      (t.insertFile [] m).files = (if m ∈ t.files then t.files else t.files ++ [m]) := by
  cases t with
  | mk fs sd => simp [TgtDir.insertFile]

theorem filesBelowIn_insertFile_root (sf : List RPath) (t : TgtDir) (m : String)
    (hb : TgtDir.filesBelowIn sf t [] = true) (hm : [m] ∈ sf) :
    TgtDir.filesBelowIn sf (t.insertFile [] m) [] = true := by
  cases t with
  | mk fs sd =>
    rw [TgtDir.filesBelowIn_mk] at hb
    simp only [TgtDir.insertFile]
    rw [TgtDir.filesBelowIn_mk]
    constructor
    · intro n hn
      by_cases hmm : m ∈ fs
      · rw [if_pos hmm] at hn
        exact hb.1 n hn
      · rw [if_neg hmm] at hn
        rcases List.mem_append.mp hn with h1 | h1
        · exact hb.1 n h1
        · have : n = m := by simpa using h1
          subst this
          simpa using hm
    · exact hb.2

theorem dirsBelowIn_insertFile_root (sdirs : List RPath) (t : TgtDir) (m : String)
    (hb : TgtDir.dirsBelowIn sdirs t [] = true) :
    TgtDir.dirsBelowIn sdirs (t.insertFile [] m) [] = true := by
  cases t with
  | mk fs sd =>
    rw [TgtDir.dirsBelowIn_mk] at hb
    simp only [TgtDir.insertFile]
    rw [TgtDir.dirsBelowIn_mk]
    exact hb

theorem rootFoldBelow (sf sdirs : List RPath) :
    ∀ (l : List SrcFile) (acc : TgtDir × Stats),
      (∀ f ∈ l, [f.name] ∈ sf) →
      TgtDir.filesBelowIn sf acc.1 [] = true →
      TgtDir.dirsBelowIn sdirs acc.1 [] = true →
      TgtDir.filesBelowIn sf ((l.foldl (fun acc f =>
        if FsEnv.clean.copyFails [f.name] then
          (acc.1, { acc.2 with errors := acc.2.errors + 1 })
        else
          (acc.1.insertFile [] f.name,
           { acc.2 with
               files_synced := acc.2.files_synced + 1
               bytes_synced := acc.2.bytes_synced + f.size })) acc).1) [] = true ∧
      TgtDir.dirsBelowIn sdirs ((l.foldl (fun acc f =>
        if FsEnv.clean.copyFails [f.name] then
          (acc.1, { acc.2 with errors := acc.2.errors + 1 })
        else
          (acc.1.insertFile [] f.name,
           { acc.2 with
               files_synced := acc.2.files_synced + 1
               bytes_synced := acc.2.bytes_synced + f.size })) acc).1) [] = true := by
  intro l
  induction l with
  | nil => intro acc _ h1 h2; exact ⟨by simpa using h1, by simpa using h2⟩
  | cons f rest ih =>
    intro acc hmem h1 h2
    rw [List.foldl_cons]
    have hc : FsEnv.clean.copyFails [f.name] = false := rfl
    simp only [hc, Bool.false_eq_true, if_false]
    apply ih
    · intro f' hf'
      exact hmem f' (List.mem_cons_of_mem _ hf')
    · exact filesBelowIn_insertFile_root sf acc.1 f.name h1
        (hmem f (List.mem_cons_self _ _))
    · exact dirsBelowIn_insertFile_root sdirs acc.1 f.name h2

theorem sync_root_files_below (S : SrcDir) (T : TgtDir) (st : Stats)
    (h1 : TgtDir.filesBelowIn (sourceFilesOf S) T [] = true)
    (h2 : TgtDir.dirsBelowIn (sourceDirsOf S) T [] = true) :
    TgtDir.filesBelowIn (sourceFilesOf S) ((sync_root_files FsEnv.clean S T st).1) [] = true ∧
    TgtDir.dirsBelowIn (sourceDirsOf S) ((sync_root_files FsEnv.clean S T st).1) [] = true :=
  rootFoldBelow (sourceFilesOf S) (sourceDirsOf S) S.files (T, st)
    (fun f hf => root_file_mem_sourceFilesOf S f hf) h1 h2

/-! ## Assembling full-run facts -/

theorem sync_success_none (env : FsEnv) (S : SrcDir) (T : TgtDir) (since : Int) :
    (sync_configuration env S T since none).success = true := by
  by_cases h : changedOf S since = []
  · rw [sync_configuration_of_no_changes env S T since none h]
  · rw [sync_configuration_of_changes_none env S T since h]
    rw [syncFinish]

theorem sync_root_files_stats_fields (env : FsEnv) (S : SrcDir) (T : TgtDir) (st : Stats) :
    ((sync_root_files env S T st).2).files_deleted = st.files_deleted ∧
    ((sync_root_files env S T st).2).dirs_deleted = st.dirs_deleted ∧
    ((sync_root_files env S T st).2).dirs_scanned = st.dirs_scanned ∧
    ((sync_root_files env S T st).2).dirs_changed = st.dirs_changed :=
  rootFoldStatsFields env S.files (T, st)

theorem sync_root_files_synced_clean (S : SrcDir) (T : TgtDir) (st : Stats) :
    ((sync_root_files FsEnv.clean S T st).2).files_synced =
      st.files_synced + S.files.length :=
  rootFoldSyncedCount FsEnv.clean S.files (T, st) (fun _ _ => rfl)

theorem sync_target_below (S : SrcDir) (T : TgtDir) (since : Int) :
    TgtDir.filesBelowIn (sourceFilesOf S)
      ((sync_configuration FsEnv.clean S T since none).target) [] = true ∧
    TgtDir.dirsBelowIn (sourceDirsOf S)
      ((sync_configuration FsEnv.clean S T since none).target) [] = true := by
  by_cases h : changedOf S since = []
  · rw [sync_configuration_of_no_changes FsEnv.clean S T since none h]
    exact cleanup_target_post S _ _
  · rw [sync_configuration_of_changes_none FsEnv.clean S T since h]
    rw [syncFinish]
    exact cleanup_target_post S _ _

theorem changedOf_newest_nil (env : FsEnv) (S : SrcDir) (T : TgtDir) (since : Int) :
    changedOf S (sync_configuration env S T since none).newest = [] := by
  by_cases h : changedOf S since = []
  · rw [sync_configuration_of_no_changes env S T since none h]
    exact h
  · rw [sync_configuration_of_changes_none env S T since h]
    rw [syncFinish]
    simp only []
    rw [syncLoop_newest]
    simp only []
    rw [changedOf_eq_filter]
    rw [List.filter_eq_nil_iff]
    intro x hx
    by_cases hroot : x.1 = []
    · simp [hroot]
    · have hle : x.2.mtime ≤
          (changedOf S since).foldl (fun a x => if x.2.mtime > a then x.2.mtime else a)
            since := by
        by_cases hm : since < x.2.mtime
        · apply foldMax_mem_le
          rw [changedOf_eq_filter, List.mem_filter]
          refine ⟨hx, ?_⟩
          simp [hroot, hm]
        · calc x.2.mtime ≤ since := by omega
            _ ≤ _ := foldMax_init_le _ _
      simp only [Bool.and_eq_true, Bool.not_eq_true', decide_eq_true_eq]
      intro _
      omega

theorem sync_no_changes_result (S : SrcDir) (T : TgtDir) (since : Int)
    (h : changedOf S since = [])
    (hf : TgtDir.filesBelowIn (sourceFilesOf S) T [] = true)
    (hd : TgtDir.dirsBelowIn (sourceDirsOf S) T [] = true) :
    (sync_configuration FsEnv.clean S T since none).stats.files_deleted = 0 ∧
    (sync_configuration FsEnv.clean S T since none).stats.dirs_deleted = 0 ∧
    (sync_configuration FsEnv.clean S T since none).stats.dirs_changed = 0 ∧
    (sync_configuration FsEnv.clean S T since none).stats.files_synced = S.files.length := by
  rw [sync_configuration_of_no_changes FsEnv.clean S T since none h]
  simp only []
  have hbelow := sync_root_files_below S T Stats.zero hf hd
  rw [cleanup_target_id FsEnv.clean S _ _ hbelow.1 hbelow.2]
  simp only []
  rw [scan_changed_directories]
  rw [scanLoop_snd]
  simp only []
  have hroot := sync_root_files_stats_fields FsEnv.clean S T Stats.zero
  have hsync := sync_root_files_synced_clean S T Stats.zero
  have hlen : ((S.walk []).filter
      (fun x => !x.1.isEmpty && decide (since < x.2.mtime))).length = 0 := by
    rw [← changedOf_eq_filter, h]
    rfl
  refine ⟨hroot.1, hroot.2.1, ?_, ?_⟩
  · rw [hlen, hroot.2.2.2]
    rfl
  · simpa [Stats.zero] using hsync

theorem syncLoop_cps_ge (env : FsEnv) :
    ∀ (l : List (RPath × SrcDir)) (i : Nat) (ls : LoopState) (a : Int),
      a ≤ ls.newest → (∀ c ∈ ls.checkpoints, a ≤ c) →
      ∀ c ∈ (syncLoop env l i ls).checkpoints, a ≤ c := by
  intro l
  induction l with
  | nil => intro i ls a h1 h2 c hc; exact h2 c (by simpa [syncLoop] using hc)
  | cons x rest ih =>
    intro i ls a h1 h2 c hc
    obtain ⟨p, d⟩ := x
    rw [syncLoop] at hc
    have hstep : ls.newest ≤ (if d.mtime > ls.newest then d.mtime else ls.newest) := by
      by_cases h : d.mtime > ls.newest
      · simp [h]; omega
      · simp [h]
    by_cases hcp : i % 50 = 0
    · refine ih (i + 1) _ a (le_trans h1 hstep) ?_ c (by simpa [hcp] using hc)
      intro c' hc'
      simp only [] at hc'
      rcases List.mem_append.mp hc' with h3 | h3
      · exact h2 c' h3
      · have : c' = (if d.mtime > ls.newest then d.mtime else ls.newest) := by
          simpa using h3
        rw [this]
        exact le_trans h1 hstep
    · refine ih (i + 1) _ a (le_trans h1 hstep) ?_ c (by simpa [hcp] using hc)
      intro c' hc'
      exact h2 c' hc'

theorem syncLoop_trace_chain (env : FsEnv) (l : List (RPath × SrcDir)) (since : Int)
    (T : TgtDir) (st : Stats) :
    List.Chain' (· ≤ ·) (since :: ((syncLoop env l 1 ⟨since, T, st, []⟩).checkpoints ++
      [(syncLoop env l 1 ⟨since, T, st, []⟩).newest])) := by
  have h1 := syncLoop_cps env l 1 ⟨since, T, st, []⟩ (by simp) (by simp)
  have h2 := syncLoop_cps_ge env l 1 ⟨since, T, st, []⟩ since (le_refl _) (by simp)
  have h3 : since ≤ (syncLoop env l 1 ⟨since, T, st, []⟩).newest := by
    rw [syncLoop_newest]
    exact foldMax_init_le _ _
  rw [List.chain'_cons']
  constructor
  · intro y hy
    cases hcp : (syncLoop env l 1 ⟨since, T, st, []⟩).checkpoints with
    | nil =>
      rw [hcp] at hy
      simp at hy
      rw [← hy]
      exact h3
    | cons c cs =>
      rw [hcp] at hy
      simp at hy
      rw [← hy]
      exact h2 c (by rw [hcp]; exact List.mem_cons_self _ _)
  · exact chain_le_append_singleton _ _ h1.2 h1.1

theorem mainConfigs_counts :
    ∀ (cfgs : List (String × SyncJob)) (state : List (String × Int)),
      (mainConfigs state cfgs).2.1 + (mainConfigs state cfgs).2.2 = cfgs.length := by
  intro cfgs
  induction cfgs with
  | nil => intro state; simp [mainConfigs]
  | cons c rest ih =>
    intro state
    obtain ⟨name, j⟩ := c
    rw [mainConfigs]
    by_cases hs : (mainStep state name j).2 = true
    · simp only [hs, if_true]
      simp only [List.length_cons]
      rw [← ih (mainStep state name j).1]
      omega
    · have hs' : (mainStep state name j).2 = false := by
        cases hx : (mainStep state name j).2 with
        | false => rfl
        | true => exact absurd hx hs
      simp only [hs', Bool.false_eq_true, if_false]
      simp only [List.length_cons]
      rw [← ih (mainStep state name j).1]
      omega

theorem sync_interrupted_facts (env : FsEnv) (S : SrcDir) (T : TgtDir) (since : Int)
    (k : Nat) (h : changedOf S since ≠ []) (hk : k ≤ (changedOf S since).length) :
    (sync_configuration env S T since (some k)).success = false ∧
    (sync_configuration env S T since (some k)).stats.files_deleted = 0 ∧
    (sync_configuration env S T since (some k)).stats.dirs_deleted = 0 ∧
    (∀ p, T.fileMem p = true →
      ((sync_configuration env S T since (some k)).target).fileMem p = true) ∧
    since ≤ (sync_configuration env S T since (some k)).newest ∧
    ((sync_configuration env S T since (some k)).newest = since ∨
      ∃ x ∈ (changedOf S since).take k,
        (sync_configuration env S T since (some k)).newest = x.2.mtime) := by
  rw [sync_configuration_interrupted env S T since k h hk]
  simp only []
  have hst := syncLoop_stats env ((changedOf S since).take k) 1
    ⟨since, (sync_root_files env S T Stats.zero).1,
     (scan_changed_directories S since (sync_root_files env S T Stats.zero).2).2, []⟩
  have hscan : (scan_changed_directories S since (sync_root_files env S T Stats.zero).2).2 =
      { (sync_root_files env S T Stats.zero).2 with
          dirs_scanned := (sync_root_files env S T Stats.zero).2.dirs_scanned +
            (S.walk []).length
          dirs_changed := (sync_root_files env S T Stats.zero).2.dirs_changed +
            ((S.walk []).filter
              (fun x => !x.1.isEmpty && decide (since < x.2.mtime))).length } := by
    rw [scan_changed_directories, scanLoop_snd]
  have hroot := sync_root_files_stats_fields env S T Stats.zero
  refine ⟨trivial, ?_, ?_, ?_, ?_, ?_⟩
  · rw [hst.1, hscan]
    simp only []
    rw [hroot.1]
    rfl
  · rw [hst.2.1, hscan]
    simp only []
    rw [hroot.2.1]
    rfl
  · intro p hp
    apply syncLoop_preserves
    exact sync_root_files_preserves env S T Stats.zero p hp
  · rw [syncLoop_newest]
    exact foldMax_init_le _ _
  · rw [syncLoop_newest]
    exact foldMax_eq_init_or_mem _ _

/-! ## Claim theorems -/

/-- C1 (counterexample to the claim as stated): with a source whose root holds
one file, a first error-free complete run from the epoch leaves a second run
with an empty changed-directory set — yet the second run's `files_synced`
counter is `1`, not `0`, because `_sync_root_files` re-copies every root file
unconditionally on every run (line 148). -/
theorem c1_counterexample :
    changedOf (SrcDir.mk 0 [⟨"m", 3⟩] [])
      (sync_configuration FsEnv.clean (SrcDir.mk 0 [⟨"m", 3⟩] [])
        TgtDir.nil 0 none).newest = [] ∧
    (sync_configuration FsEnv.clean (SrcDir.mk 0 [⟨"m", 3⟩] [])
      (sync_configuration FsEnv.clean (SrcDir.mk 0 [⟨"m", 3⟩] [])
        TgtDir.nil 0 none).target
      (sync_configuration FsEnv.clean (SrcDir.mk 0 [⟨"m", 3⟩] [])
        TgtDir.nil 0 none).newest
      none).stats.files_synced = 1 := by
  have h0 : changedOf (SrcDir.mk 0 [⟨"m", 3⟩] []) 0 = [] := by
    rw [changedOf_eq_filter]
    simp [SrcDir.walk, SrcDir.walkList]
  have hn : (sync_configuration FsEnv.clean (SrcDir.mk 0 [⟨"m", 3⟩] [])
      TgtDir.nil 0 none).newest = 0 := by
    rw [sync_configuration_of_no_changes FsEnv.clean _ _ 0 none h0]
  constructor
  · rw [hn]
    exact h0
  · rw [hn]
    have hb := sync_target_below (SrcDir.mk 0 [⟨"m", 3⟩] []) TgtDir.nil 0
    have hr := (sync_no_changes_result (SrcDir.mk 0 [⟨"m", 3⟩] [])
      (sync_configuration FsEnv.clean (SrcDir.mk 0 [⟨"m", 3⟩] [])
        TgtDir.nil 0 none).target 0 h0 hb.1 hb.2).2.2.2
    rw [hr]
    rfl

/-- C1 (amended): running sync twice in succession over an unchanged source
with no filesystem failures: both runs succeed, the second run's
changed-directory set is empty, and its `files_deleted` and `dirs_deleted`
counters are `0`.  Its `files_synced` counter equals the number of files
directly in the source root (root files are unconditionally re-copied on
every run), which is `0` exactly when the root holds no files. -/
theorem second_run_is_idempotent (S : SrcDir) (T : TgtDir) (since : Int) :
    (sync_configuration FsEnv.clean S T since none).success = true ∧
    (sync_configuration FsEnv.clean S
      (sync_configuration FsEnv.clean S T since none).target
      (sync_configuration FsEnv.clean S T since none).newest none).success = true ∧
    changedOf S (sync_configuration FsEnv.clean S T since none).newest = [] ∧
    (sync_configuration FsEnv.clean S
      (sync_configuration FsEnv.clean S T since none).target
      (sync_configuration FsEnv.clean S T since none).newest
      none).stats.dirs_changed = 0 ∧
    (sync_configuration FsEnv.clean S
      (sync_configuration FsEnv.clean S T since none).target
      (sync_configuration FsEnv.clean S T since none).newest
      none).stats.files_deleted = 0 ∧
    (sync_configuration FsEnv.clean S
      (sync_configuration FsEnv.clean S T since none).target
      (sync_configuration FsEnv.clean S T since none).newest
      none).stats.dirs_deleted = 0 ∧
    (sync_configuration FsEnv.clean S
      (sync_configuration FsEnv.clean S T since none).target
      (sync_configuration FsEnv.clean S T since none).newest
      none).stats.files_synced = S.files.length := by
  have h2 := changedOf_newest_nil FsEnv.clean S T since
  have hb := sync_target_below S T since
  have hres := sync_no_changes_result S
    (sync_configuration FsEnv.clean S T since none).target
    (sync_configuration FsEnv.clean S T since none).newest h2 hb.1 hb.2
  exact ⟨sync_success_none FsEnv.clean S T since,
    sync_success_none FsEnv.clean S _ _,
    h2, hres.2.2.1, hres.1, hres.2.1, hres.2.2.2⟩

/-- C2 (code evaluation at the failing input): a configuration with one
changed directory `a` (mtime 5, newer than the stored last-sync 0) whose
target-directory creation fails.  `_sync_directory` aborts (one error, zero
files copied, the target directory is never created), yet the loop at
lines 207-213 still advances the newest-synced timestamp to 5 — the run even
reports success — so a resumed run would skip `a` forever, contradicting the
documented guarantee that the timestamp is never set ahead of the last
directory actually mirrored. -/
theorem newest_advances_past_aborted_directory :
    (sync_configuration
      ⟨fun p => decide (p = ["a"]), fun _ => false, fun _ => false, fun _ => false⟩
      (SrcDir.mk 0 [] [("a", SrcDir.mk 5 [⟨"f", 1⟩] [])]) TgtDir.nil 0 none).newest = 5 ∧
    (sync_configuration
      ⟨fun p => decide (p = ["a"]), fun _ => false, fun _ => false, fun _ => false⟩
      (SrcDir.mk 0 [] [("a", SrcDir.mk 5 [⟨"f", 1⟩] [])])
        TgtDir.nil 0 none).stats.files_synced = 0 ∧
    (sync_configuration
      ⟨fun p => decide (p = ["a"]), fun _ => false, fun _ => false, fun _ => false⟩
      (SrcDir.mk 0 [] [("a", SrcDir.mk 5 [⟨"f", 1⟩] [])])
        TgtDir.nil 0 none).stats.errors = 1 ∧
    ((sync_configuration
      ⟨fun p => decide (p = ["a"]), fun _ => false, fun _ => false, fun _ => false⟩
      (SrcDir.mk 0 [] [("a", SrcDir.mk 5 [⟨"f", 1⟩] [])])
        TgtDir.nil 0 none).target).dirMem ["a"] = false ∧
    (sync_configuration
      ⟨fun p => decide (p = ["a"]), fun _ => false, fun _ => false, fun _ => false⟩
      (SrcDir.mk 0 [] [("a", SrcDir.mk 5 [⟨"f", 1⟩] [])]) TgtDir.nil 0 none).success = true := by
  refine ⟨?_, ?_, ?_, ?_, ?_⟩ <;>
    simp [sync_configuration, sync_root_files, scan_changed_directories, scanLoop,
      SrcDir.walk, SrcDir.walkList, syncFinish, syncLoop, sync_directory,
      cleanup_target, cleanup_files, cleanup_dirs, check_children, removeFilesAt,
      cleanup_files_list, cleanup_dirs_list, sourceFilesOf, sourceDirsOf,
      TgtDir.nil, TgtDir.dirMem, TgtDir.child?, Stats.zero]

/-- C3: a non-root directory of the source tree is in the changed-directory
result exactly when its modification time is strictly greater than the
last-sync threshold `since`; in particular a directory whose mtime equals
`since` is not included. -/
theorem scanner_strict_threshold (S : SrcDir) (since : Int) (p : RPath) (d : SrcDir)
    (hw : (p, d) ∈ S.walk []) (hp : p ≠ []) :
    ((p, d) ∈ changedOf S since ↔ since < d.mtime) := by
  rw [changedOf_eq_filter, List.mem_filter]
  constructor
  · rintro ⟨_, hcond⟩
    simp only [Bool.and_eq_true, decide_eq_true_eq] at hcond
    exact hcond.2
  · intro hlt
    refine ⟨hw, ?_⟩
    simp [hp, hlt]

/-- Witness for C3 at a concrete two-directory source. -/
theorem scanner_strict_threshold_witness :
    ((["a"], SrcDir.mk 5 [] []) ∈
      (SrcDir.mk 0 [] [("a", SrcDir.mk 5 [] []), ("b", SrcDir.mk 3 [] [])]).walk []) ∧
    (((["a"], SrcDir.mk 5 [] []) ∈
      changedOf (SrcDir.mk 0 [] [("a", SrcDir.mk 5 [] []), ("b", SrcDir.mk 3 [] [])]) 3) ↔
      (3 : Int) < 5) :=
  ⟨by simp [SrcDir.walk, SrcDir.walkList],
   scanner_strict_threshold _ 3 _ _ (by simp [SrcDir.walk, SrcDir.walkList]) (by simp)⟩

/-- C4: (a) `sync_configuration` always returns a newest-synced value at least
the last-sync value it was given, whatever the environment or interruption;
(b) `main` persists exactly the returned value for the configuration;
(c) across any sequence of runs — interrupted, failing or not, with any
source/target evolution — the stored value never decreases; (d) within one
run the full write trace (last-sync, then the periodic checkpoints, then the
final value) is monotone non-decreasing. -/
theorem stored_last_sync_monotone :
    (∀ (env : FsEnv) (S : SrcDir) (T : TgtDir) (since : Int) (intr : Option Nat),
      since ≤ (sync_configuration env S T since intr).newest) ∧
    (∀ (state : List (String × Int)) (name : String) (job : SyncJob),
      getLastSyncV (mainStep state name job).1 name =
        (sync_configuration job.env job.source job.target (getLastSyncV state name)
          job.interrupt).newest) ∧
    (∀ (jobs : List SyncJob) (state : List (String × Int)) (name : String),
      getLastSyncV state name ≤ getLastSyncV (mainRunJobs state name jobs) name) ∧
    (∀ (env : FsEnv) (S : SrcDir) (T : TgtDir) (since : Int) (intr : Option Nat),
      List.Chain' (· ≤ ·) (since :: ((sync_configuration env S T since intr).checkpoints ++
        [(sync_configuration env S T since intr).newest]))) := by
  refine ⟨sync_newest_ge, mainStep_persists, mainRunJobs_mono, ?_⟩
  intro env S T since intr
  by_cases h : changedOf S since = []
  · rw [sync_configuration_of_no_changes env S T since intr h]
    simp
  · cases intr with
    | none =>
      rw [sync_configuration_of_changes_none env S T since h]
      rw [syncFinish]
      exact syncLoop_trace_chain env _ since _ _
    | some k =>
      by_cases hk : k ≤ (changedOf S since).length
      · rw [sync_configuration_interrupted env S T since k h hk]
        exact syncLoop_trace_chain env _ since _ _
      · rw [sync_configuration_of_changes_some_gt env S T since k h hk]
        rw [syncFinish]
        exact syncLoop_trace_chain env _ since _ _

theorem sync_configuration_root_file (S : SrcDir) (T : TgtDir) (since : Int)
    (intr : Option Nat) (f : SrcFile) (hf : f ∈ S.files) :
    ((sync_configuration FsEnv.clean S T since intr).target).fileMem [f.name] = true := by
  have hroot : ((sync_root_files FsEnv.clean S T Stats.zero).1).fileMem [f.name] = true :=
    sync_root_files_all FsEnv.clean S T Stats.zero (fun _ _ => rfl) f hf
  by_cases h : changedOf S since = []
  · rw [sync_configuration_of_no_changes FsEnv.clean S T since intr h]
    exact cleanup_target_keeps_file FsEnv.clean S _ _ _ hroot
      (root_file_mem_sourceFilesOf S f hf)
  · cases intr with
    | none =>
      rw [sync_configuration_of_changes_none FsEnv.clean S T since h]
      rw [syncFinish]
      apply cleanup_target_keeps_file FsEnv.clean S _ _ _ _
        (root_file_mem_sourceFilesOf S f hf)
      exact syncLoop_preserves FsEnv.clean _ 1 _ _ hroot
    | some k =>
      by_cases hk : k ≤ (changedOf S since).length
      · rw [sync_configuration_interrupted FsEnv.clean S T since k h hk]
        exact syncLoop_preserves FsEnv.clean _ 1 _ _ hroot
      · rw [sync_configuration_of_changes_some_gt FsEnv.clean S T since k h hk]
        rw [syncFinish]
        apply cleanup_target_keeps_file FsEnv.clean S _ _ _ _
          (root_file_mem_sourceFilesOf S f hf)
        exact syncLoop_preserves FsEnv.clean _ 1 _ _ hroot

/-- C6: the scanner counts the root among scanned directories (the root is
always walked and every walked directory is counted) but never reports it as
changed, whatever its mtime; root-level files are instead mirrored
unconditionally on every error-free run — they are present in the final
target even when nothing changed and even when the run is interrupted. -/
theorem root_never_changed_always_mirrored :
    (∀ (S : SrcDir) (since : Int), ∀ x ∈ changedOf S since, x.1 ≠ []) ∧
    (∀ (S : SrcDir) (since : Int) (st : Stats),
      (scan_changed_directories S since st).2.dirs_scanned =
        st.dirs_scanned + (S.walk []).length) ∧
    (∀ S : SrcDir, ([], S) ∈ S.walk []) ∧
    (∀ (S : SrcDir) (T : TgtDir) (since : Int) (intr : Option Nat) (f : SrcFile),
      f ∈ S.files →
      ((sync_configuration FsEnv.clean S T since intr).target).fileMem [f.name] = true) := by
  refine ⟨?_, ?_, ?_, ?_⟩
  · intro S since x hx
    rw [changedOf_eq_filter] at hx
    have hp := List.of_mem_filter hx
    simp only [Bool.and_eq_true] at hp
    intro hnil
    rw [hnil] at hp
    simp at hp
  · intro S since st
    rw [scan_changed_directories, scanLoop_snd]
  · exact fun S => self_mem_walk S []
  · exact fun S T since intr f hf => sync_configuration_root_file S T since intr f hf

/-- Witness for C6's root-file conjunct at a concrete source. -/
theorem root_never_changed_always_mirrored_witness :
    ((⟨"m", 3⟩ : SrcFile) ∈ (SrcDir.mk 7 [⟨"m", 3⟩] []).files) ∧
    ((sync_configuration FsEnv.clean (SrcDir.mk 7 [⟨"m", 3⟩] [])
      TgtDir.nil 0 none).target).fileMem ["m"] = true :=
  ⟨by simp,
   root_never_changed_always_mirrored.2.2.2 (SrcDir.mk 7 [⟨"m", 3⟩] [])
     TgtDir.nil 0 none ⟨"m", 3⟩ (by simp)⟩

/-- C7: when a cancellation arrives during the mirroring loop, after `k` of
the changed directories: the run reports failure, returns a newest-synced
timestamp accumulated only from the directories actually processed (at least
the incoming last-sync value), skips reconciliation — its deletion counters
are zero and every file present in the target before the run is still
present — and `main`'s loop still tallies every configuration of a batch, so
other configurations keep being processed. -/
theorem interruption_preserves_progress (env : FsEnv) (S : SrcDir) (T : TgtDir)
    (since : Int) (k : Nat) (h : changedOf S since ≠ [])
    (hk : k ≤ (changedOf S since).length) :
    (sync_configuration env S T since (some k)).success = false ∧
    (sync_configuration env S T since (some k)).stats.files_deleted = 0 ∧
    (sync_configuration env S T since (some k)).stats.dirs_deleted = 0 ∧
    (∀ p, T.fileMem p = true →
      ((sync_configuration env S T since (some k)).target).fileMem p = true) ∧
    since ≤ (sync_configuration env S T since (some k)).newest ∧
    ((sync_configuration env S T since (some k)).newest = since ∨
      ∃ x ∈ (changedOf S since).take k,
        (sync_configuration env S T since (some k)).newest = x.2.mtime) ∧
    (∀ (cfgs : List (String × SyncJob)) (state : List (String × Int)),
      (mainConfigs state cfgs).2.1 + (mainConfigs state cfgs).2.2 = cfgs.length) := by
  have hfacts := sync_interrupted_facts env S T since k h hk
  exact ⟨hfacts.1, hfacts.2.1, hfacts.2.2.1, hfacts.2.2.2.1, hfacts.2.2.2.2.1,
    hfacts.2.2.2.2.2, fun cfgs state => mainConfigs_counts cfgs state⟩

/-- Witness for C7: a source with one changed directory, interrupted after
mirroring it. -/
theorem interruption_preserves_progress_witness :
    changedOf (SrcDir.mk 0 [] [("a", SrcDir.mk 5 [] [])]) 0 ≠ [] ∧
    1 ≤ (changedOf (SrcDir.mk 0 [] [("a", SrcDir.mk 5 [] [])]) 0).length ∧
    (sync_configuration FsEnv.clean (SrcDir.mk 0 [] [("a", SrcDir.mk 5 [] [])])
      TgtDir.nil 0 (some 1)).success = false :=
  ⟨by rw [changedOf_eq_filter]; simp [SrcDir.walk, SrcDir.walkList],
   by rw [changedOf_eq_filter]; simp [SrcDir.walk, SrcDir.walkList],
   (interruption_preserves_progress FsEnv.clean _ TgtDir.nil 0 1
     (by rw [changedOf_eq_filter]; simp [SrcDir.walk, SrcDir.walkList])
     (by rw [changedOf_eq_filter]; simp [SrcDir.walk, SrcDir.walkList])).1⟩

/-- C8: `get_last_sync` returns the parsed stored timestamp when the entry is
present, non-empty and parsable, and the epoch when the entry is absent or
fails to parse; it is a total function, so a parse failure can never escape
it (`parse` returns `none` exactly where `datetime.fromisoformat` raises, and
that branch is the logged-and-ignored one). -/
theorem get_last_sync_spec (parse : String → Option Int)
    (state : List (String × String)) (name : String)
    (hparse : parse "" = none) :
    (∀ s t, lookupState state name = some s → parse s = some t →
      get_last_sync parse state name = t) ∧
    (lookupState state name = none → get_last_sync parse state name = 0) ∧
    (∀ s, lookupState state name = some s → parse s = none →
      get_last_sync parse state name = 0) := by
  refine ⟨?_, ?_, ?_⟩
  · intro s t hl hp
    by_cases hs : s = ""
    · subst hs
      rw [hparse] at hp
      exact absurd hp (by simp)
    · simp [get_last_sync, hl, hs, hp]
  · intro hl
    simp [get_last_sync, hl]
  · intro s hl hp
    by_cases hs : s = ""
    · simp [get_last_sync, hl, hs]
    · simp [get_last_sync, hl, hs, hp]

/-- Witness for C8 with a concrete parser and store: a parsable entry is
returned, a missing entry and an unparsable entry both give the epoch. -/
theorem get_last_sync_spec_witness :
    ((fun s => if s = "2024-01-01" then some (100 : Int) else none) "" = none) ∧
    get_last_sync (fun s => if s = "2024-01-01" then some (100 : Int) else none)
      [("a", "2024-01-01"), ("b", "oops")] "a" = 100 ∧
    get_last_sync (fun s => if s = "2024-01-01" then some (100 : Int) else none)
      [("a", "2024-01-01"), ("b", "oops")] "c" = 0 ∧
    get_last_sync (fun s => if s = "2024-01-01" then some (100 : Int) else none)
      [("a", "2024-01-01"), ("b", "oops")] "b" = 0 :=
  ⟨by simp,
   (get_last_sync_spec _ _ "a" (by simp)).1 "2024-01-01" 100
     (by simp [lookupState, List.find?]) (by simp),
   (get_last_sync_spec _ _ "c" (by simp)).2.1 (by simp [lookupState, List.find?]),
   (get_last_sync_spec _ _ "b" (by simp)).2.2 "oops"
     (by simp [lookupState, List.find?]) (by simp)⟩

/-- C9: reconciliation never deletes a target file whose relative path is in
the source file set, and never removes a target directory whose relative path
is in the source directory set — whatever failures occur. -/
theorem reconciliation_spares_source_members (env : FsEnv) (S : SrcDir) (T : TgtDir)
    (st : Stats) :
    (∀ p, T.fileMem p = true → p ∈ sourceFilesOf S →
      ((cleanup_target env S T st).1).fileMem p = true) ∧
    (∀ p, T.dirMem p = true → p ∈ sourceDirsOf S →
      ((cleanup_target env S T st).1).dirMem p = true) :=
  ⟨fun p hf hm => cleanup_target_keeps_file env S T st p hf hm,
   fun p hd hm => cleanup_target_keeps_dir env S T st p hd hm⟩

/-- Witness for C9 at a concrete tree: a file and a directory present in both
source and target survive cleanup. -/
theorem reconciliation_spares_source_members_witness :
    TgtDir.fileMem (TgtDir.mk [] [("a", TgtDir.mk ["f"] [])]) ["a", "f"] = true ∧
    ["a", "f"] ∈ sourceFilesOf (SrcDir.mk 0 [] [("a", SrcDir.mk 5 [⟨"f", 1⟩] [])]) ∧
    ((cleanup_target FsEnv.clean (SrcDir.mk 0 [] [("a", SrcDir.mk 5 [⟨"f", 1⟩] [])])
      (TgtDir.mk [] [("a", TgtDir.mk ["f"] [])]) Stats.zero).1).fileMem ["a", "f"] = true :=
  ⟨by simp [TgtDir.fileMem, TgtDir.child?, List.find?],
   by simp [sourceFilesOf, SrcDir.walk, SrcDir.walkList],
   (reconciliation_spares_source_members FsEnv.clean _ _ Stats.zero).1 ["a", "f"]
     (by simp [TgtDir.fileMem, TgtDir.child?, List.find?])
     (by simp [sourceFilesOf, SrcDir.walk, SrcDir.walkList])⟩

/-- C10: the changed-directory list is in top-down order — no later entry's
path is a strict ancestor of an earlier entry's path, so a changed parent is
always mirrored before its changed descendants. -/
theorem changed_list_topdown (S : SrcDir) (since : Int) (hnd : S.nodupNames = true) :
    List.Pairwise (fun x y => strictUnder y.1 x.1 = false) (changedOf S since) := by
  rw [changedOf_eq_filter]
  exact List.Pairwise.sublist (List.filter_sublist _) (walk_pairwise S [] hnd)

/-- Witness for C10 at a concrete nested source. -/
theorem changed_list_topdown_witness :
    SrcDir.nodupNames
      (SrcDir.mk 0 [] [("a", SrcDir.mk 5 [] [("b", SrcDir.mk 7 [] [])])]) = true ∧
    List.Pairwise (fun x y => strictUnder y.1 x.1 = false)
      (changedOf (SrcDir.mk 0 [] [("a", SrcDir.mk 5 [] [("b", SrcDir.mk 7 [] [])])]) 1) :=
  ⟨by simp [SrcDir.nodupNames, SrcDir.nodupNamesList],
   changed_list_topdown _ 1 (by simp [SrcDir.nodupNames, SrcDir.nodupNamesList])⟩

/-! ## Reconciliation: removal characterization (towards C5) -/

theorem TgtDir.nodup_child (t : TgtDir) (n : String) (c : TgtDir)
    (hnd : t.nodupNames = true) (hc : t.child? n = some c) : c.nodupNames = true := by
  cases t with
  | mk fs sd =>
    rw [TgtDir.nodupNames_mk_tgt] at hnd
    simp only [Bool.and_eq_true] at hnd
    rw [TgtDir.nodupNamesList_iff_tgt] at hnd
    simp only [TgtDir.child?, TgtDir.subdirs_mk_tgt] at hc
    cases hf : sd.find? (fun x => x.1 == n) with
    | none => rw [hf] at hc; simp at hc
    | some x =>
      rw [hf] at hc
      have hx : x.2 = c := by simpa using hc
      rw [← hx]
      exact hnd.2 x (List.mem_of_find?_eq_some hf)

theorem cleanup_files_nodup (env : FsEnv) (sf : List RPath) :
    ∀ (t : TgtDir) (rp : RPath) (st : Stats),
      t.nodupNames = true → ((cleanup_files env sf t rp st).1).nodupNames = true := by
  intro t
  induction t using TgtDir.inductionOn_tgt with
  | h fs sd ih =>
    intro rp st hnd
    rw [TgtDir.nodupNames_mk_tgt] at hnd
    simp only [Bool.and_eq_true, decide_eq_true_eq] at hnd
    rw [TgtDir.nodupNamesList_iff_tgt] at hnd
    rw [cleanup_files_eq]
    simp only []
    rw [TgtDir.nodupNames_mk_tgt]
    simp only [Bool.and_eq_true, decide_eq_true_eq]
    constructor
    · rw [cleanup_files_list_map]
      have hmap : (sd.map (fun c =>
          (c.1, (cleanup_files env sf c.2 (rp ++ [c.1]) Stats.zero).1))).map Prod.fst =
          sd.map Prod.fst := by
        rw [List.map_map]
        rfl
      rw [hmap]
      exact hnd.1
    · rw [TgtDir.nodupNamesList_iff_tgt]
      intro c hc
      rw [cleanup_files_list_map] at hc
      obtain ⟨x, hx, rfl⟩ := List.mem_map.mp hc
      exact ih x hx (rp ++ [x.1]) Stats.zero (hnd.2 x hx)

theorem find_filter_nodup (pred : String × TgtDir → Bool) (n : String) :
    ∀ (l : List (String × TgtDir)), (l.map Prod.fst).Nodup →
      (l.filter pred).find? (fun y => y.1 == n) =
        match l.find? (fun y => y.1 == n) with
        | some c => if pred c then some c else none
        | none => none := by
  intro l
  induction l with
  | nil => intro _; simp [List.find?]
  | cons c rest ih =>
    intro hnd
    simp only [List.map_cons, List.nodup_cons] at hnd
    by_cases hc : (c.1 == n) = true
    · have hc1 : c.1 = n := by simpa using hc
      have hnone : ∀ x ∈ rest.filter pred, ((fun (y : String × TgtDir) => y.1 == n) x) ≠ true := by
        intro x hx hxn
        have hx1 : x.1 = n := by simpa using hxn
        apply hnd.1
        rw [hc1, ← hx1]
        exact List.mem_map_of_mem Prod.fst (List.mem_of_mem_filter hx)
      have hnone' : (rest.filter pred).find? (fun y => y.1 == n) = none := by
        rw [List.find?_eq_none]
        intro x hx
        exact fun hxx => hnone x hx hxx
      rw [List.filter_cons]
      by_cases hpc : pred c = true
      · rw [if_pos hpc]
        simp [List.find?, hc, hpc]
      · have hpc' : pred c = false := by
          cases hx : pred c with
          | false => rfl
          | true => exact absurd hx hpc
        rw [if_neg (by simp [hpc'])]
        simp [List.find?, hc, hpc', hnone']
    · have hc' : (c.1 == n) = false := by
        cases hx : (c.1 == n) with
        | false => rfl
        | true => exact absurd hx hc
      rw [List.filter_cons]
      by_cases hpc : pred c = true
      · rw [if_pos hpc]
        simp only [List.find?, hc']
        exact ih hnd.2
      · rw [if_neg hpc]
        simp only [List.find?, hc']
        exact ih hnd.2

theorem kept_child_nonempty (env : FsEnv) (sdirs : List RPath)
    (c : TgtDir) (m : String) (c' : TgtDir) (brp : RPath)
    (hc : c.child? m = some c')
    (hcond : (brp ++ [m]) ∈ sdirs ∨
      ((cleanup_dirs env sdirs c' (brp ++ [m]) Stats.zero).1).isEmptyNode = false) :
    ((cleanup_dirs env sdirs c brp Stats.zero).1).isEmptyNode = false := by
  cases c with
  | mk fs sd =>
    simp only [TgtDir.child?, TgtDir.subdirs_mk_tgt] at hc
    rw [cleanup_dirs_eq]
    simp only []
    cases hf : sd.find? (fun x => x.1 == m) with
    | none => rw [hf] at hc; simp at hc
    | some x =>
      rw [hf] at hc
      have hx2 : x.2 = c' := by simpa using hc
      have hx1 : x.1 = m := by
        have := List.find?_some hf
        simpa using this
      have hmem : (x.1, (cleanup_dirs env sdirs x.2 (brp ++ [x.1]) Stats.zero).1) ∈
          (check_children env sdirs brp
            (cleanup_dirs_list env sdirs sd brp Stats.zero).1
            (cleanup_dirs_list env sdirs sd brp Stats.zero).2).1 := by
        rw [check_children_fst_filter, cleanup_dirs_list_map]
        rw [List.mem_filter]
        constructor
        · exact List.mem_map_of_mem _ (List.mem_of_find?_eq_some hf)
        · rw [hx1, hx2]
          rcases hcond with h1 | h1
          · simp [h1]
          · simp [h1]
      cases hlist : (check_children env sdirs brp
          (cleanup_dirs_list env sdirs sd brp Stats.zero).1
          (cleanup_dirs_list env sdirs sd brp Stats.zero).2).1 with
      | nil => rw [hlist] at hmem; simp at hmem
      | cons y ys =>
        simp [TgtDir.isEmptyNode]

theorem TgtDir.subtreeAt_cons (t : TgtDir) (n : String) (rest : RPath) :
    t.subtreeAt (n :: rest) =
      match t.child? n with
      | some c => c.subtreeAt rest
      | none => none := by
  cases t with
  | mk fs sd => simp [TgtDir.subtreeAt]

theorem cleanup_dirs_dirMem_cons (env : FsEnv) (sdirs : List RPath)
    (henv : ∀ q, env.rmdirFails q = false)
    (fs : List String) (sd : List (String × TgtDir)) (rp : RPath) (st : Stats)
    (n : String) (rest : RPath) (hnd : (sd.map Prod.fst).Nodup) :
    (((cleanup_dirs env sdirs (.mk fs sd) rp st).1).dirMem (n :: rest) = true ↔
      ∃ c1, (TgtDir.mk fs sd).child? n = some c1 ∧
        ((rp ++ [n]) ∈ sdirs ∨
          ((cleanup_dirs env sdirs c1 (rp ++ [n]) Stats.zero).1).isEmptyNode = false) ∧
        ((cleanup_dirs env sdirs c1 (rp ++ [n]) Stats.zero).1).dirMem rest = true) := by
  rw [cleanup_dirs_eq]
  simp only []
  rw [TgtDir.dirMem_cons]
  simp only [TgtDir.child?, TgtDir.subdirs_mk_tgt]
  rw [check_children_fst_filter, cleanup_dirs_list_map]
  have hndm : (((sd.map (fun c =>
      (c.1, (cleanup_dirs env sdirs c.2 (rp ++ [c.1]) Stats.zero).1)))).map Prod.fst).Nodup := by
    rw [List.map_map]
    exact hnd
  rw [find_filter_nodup _ n _ hndm]
  rw [find_name_map]
  cases hf : sd.find? (fun y => y.1 == n) with
  | none =>
    simp
  | some x =>
    have hx1 : x.1 = n := by
      have := List.find?_some hf
      simpa using this
    simp only [Option.map_some']
    by_cases hcond : ((rp ++ [n]) ∈ sdirs ∨
        ((cleanup_dirs env sdirs x.2 (rp ++ [n]) Stats.zero).1).isEmptyNode = false)
    · have hp : (decide ((rp ++ [x.1]) ∈ sdirs) ||
          !((cleanup_dirs env sdirs x.2 (rp ++ [x.1]) Stats.zero).1).isEmptyNode ||
          env.rmdirFails (rp ++ [x.1])) = true := by
        rw [hx1]
        rcases hcond with h1 | h1
        · simp [h1]
        · simp [h1]
      rw [if_pos hp]
      show ((cleanup_dirs env sdirs x.2 (rp ++ [x.1]) Stats.zero).1).dirMem rest = true ↔ _
      constructor
      · intro h
        refine ⟨x.2, rfl, hcond, ?_⟩
        rw [← hx1]
        exact h
      · rintro ⟨c1, hc1, _, hdm⟩
        have hx2 : x.2 = c1 := by simpa using hc1
        rw [hx1, hx2]
        exact hdm
    · have hp : ¬((decide ((rp ++ [x.1]) ∈ sdirs) ||
          !((cleanup_dirs env sdirs x.2 (rp ++ [x.1]) Stats.zero).1).isEmptyNode ||
          env.rmdirFails (rp ++ [x.1])) = true) := by
        rw [hx1]
        intro hb
        apply hcond
        simp only [henv, Bool.or_false, Bool.or_eq_true, decide_eq_true_eq,
          Bool.not_eq_true'] at hb
        exact hb
      rw [if_neg hp]
      show false = true ↔ _
      constructor
      · intro h
        exact absurd h (by simp)
      · rintro ⟨c1, hc1, hcond1, _⟩
        have hx2 : x.2 = c1 := by simpa using hc1
        rw [← hx2] at hcond1
        exact absurd hcond1 hcond

theorem cond_up (env : FsEnv) (sdirs : List RPath) :
    ∀ (rest : RPath) (c : TgtDir) (brp : RPath) (final : TgtDir),
      rest ≠ [] → c.subtreeAt rest = some final →
      ((brp ++ rest) ∈ sdirs ∨
        ((cleanup_dirs env sdirs final (brp ++ rest) Stats.zero).1).isEmptyNode = false) →
      ((cleanup_dirs env sdirs c brp Stats.zero).1).isEmptyNode = false := by
  intro rest
  induction rest with
  | nil => intro c brp final hne _ _; exact absurd rfl hne
  | cons m rest' ih =>
    intro c brp final hne hsub hcond
    rw [TgtDir.subtreeAt_cons] at hsub
    cases hc : c.child? m with
    | none => rw [hc] at hsub; simp at hsub
    | some c1 =>
      rw [hc] at hsub
      simp only [] at hsub
      cases rest' with
      | nil =>
        have hfin : c1 = final := by
          simpa [TgtDir.subtreeAt] using hsub
        subst hfin
        apply kept_child_nonempty env sdirs c m c1 brp hc
        simpa using hcond
      | cons a as =>
        apply kept_child_nonempty env sdirs c m c1 brp hc
        right
        apply ih c1 (brp ++ [m]) final (by simp) hsub
        have hpath : brp ++ m :: a :: as = (brp ++ [m]) ++ (a :: as) := by
          simp
        rw [hpath] at hcond
        exact hcond

theorem cleanup_dirs_dirMem_iff (env : FsEnv) (sdirs : List RPath)
    (henv : ∀ q, env.rmdirFails q = false) :
    ∀ (p : RPath) (t : TgtDir) (rp : RPath) (st : Stats) (c : TgtDir),
      p ≠ [] → t.nodupNames = true → t.subtreeAt p = some c →
      (((cleanup_dirs env sdirs t rp st).1).dirMem p = true ↔
        ((rp ++ p) ∈ sdirs ∨
          ((cleanup_dirs env sdirs c (rp ++ p) Stats.zero).1).isEmptyNode = false)) := by
  intro p
  induction p with
  | nil => intro t rp st c hne _ _; exact absurd rfl hne
  | cons n rest ih =>
    intro t rp st c hne hnd hsub
    cases t with
    | mk fs sd =>
      have hnd' : (sd.map Prod.fst).Nodup := by
        rw [TgtDir.nodupNames_mk_tgt] at hnd
        simp only [Bool.and_eq_true, decide_eq_true_eq] at hnd
        exact hnd.1
      rw [cleanup_dirs_dirMem_cons env sdirs henv fs sd rp st n rest hnd']
      rw [TgtDir.subtreeAt_cons] at hsub
      cases hc : (TgtDir.mk fs sd).child? n with
      | none => rw [hc] at hsub; simp at hsub
      | some c1 =>
        rw [hc] at hsub
        simp only [] at hsub
        have hstep : (∃ c1', some c1 = some c1' ∧
            ((rp ++ [n]) ∈ sdirs ∨
              ((cleanup_dirs env sdirs c1' (rp ++ [n]) Stats.zero).1).isEmptyNode = false) ∧
            ((cleanup_dirs env sdirs c1' (rp ++ [n]) Stats.zero).1).dirMem rest = true) ↔
            (((rp ++ [n]) ∈ sdirs ∨
              ((cleanup_dirs env sdirs c1 (rp ++ [n]) Stats.zero).1).isEmptyNode = false) ∧
            ((cleanup_dirs env sdirs c1 (rp ++ [n]) Stats.zero).1).dirMem rest = true) := by
          constructor
          · rintro ⟨c1', hc1', hcond, hdm⟩
            have he : c1 = c1' := by simpa using hc1'
            rw [← he] at hcond hdm
            exact ⟨hcond, hdm⟩
          · intro h
            exact ⟨c1, rfl, h.1, h.2⟩
        rw [hstep]
        cases rest with
        | nil =>
          have hfin : c1 = c := by
            simpa [TgtDir.subtreeAt] using hsub
          subst hfin
          simp [TgtDir.dirMem]
        | cons a as =>
          have hnd1 : c1.nodupNames = true :=
            TgtDir.nodup_child _ n c1 hnd hc
          have hih := ih c1 (rp ++ [n]) Stats.zero c (by simp) hnd1 hsub
          have hpath : (rp ++ [n]) ++ (a :: as) = rp ++ n :: a :: as := by
            simp
          rw [hpath] at hih
          constructor
          · intro h
            exact hih.mp h.2
          · intro h
            refine ⟨?_, hih.mpr h⟩
            right
            apply cond_up env sdirs (a :: as) c1 (rp ++ [n]) c (by simp) hsub
            rw [hpath]
            exact h

/-! ## Reconciliation: bottom-up visit order (towards C5) -/

theorem cleanupVisitOrder_eq (fs : List String) (sd : List (String × TgtDir))
    (rp : RPath) :
    cleanupVisitOrder (.mk fs sd) rp =
      cleanupVisitOrderList sd rp ++ sd.map (fun c => rp ++ [c.1]) := by
  simp [cleanupVisitOrder]

theorem cleanupVisitOrderList_nil (rp : RPath) :
    cleanupVisitOrderList [] rp = [] := by
  simp [cleanupVisitOrderList]

theorem cleanupVisitOrderList_cons (n : String) (d : TgtDir)
    (rest : List (String × TgtDir)) (rp : RPath) :
    cleanupVisitOrderList ((n, d) :: rest) rp =
      cleanupVisitOrder d (rp ++ [n]) ++ cleanupVisitOrderList rest rp := by
  simp [cleanupVisitOrderList]

theorem mem_cleanupVisitOrderList (sd : List (String × TgtDir)) (rp : RPath)
    (x : RPath) :
    x ∈ cleanupVisitOrderList sd rp ↔
      ∃ c ∈ sd, x ∈ cleanupVisitOrder c.2 (rp ++ [c.1]) := by
  induction sd with
  | nil => simp [cleanupVisitOrderList_nil]
  | cons c rest ih =>
    obtain ⟨n, d⟩ := c
    rw [cleanupVisitOrderList_cons]
    simp [List.mem_append, ih]

theorem cleanupVisitOrder_shape (t : TgtDir) :
    ∀ (rp : RPath) (x : RPath), x ∈ cleanupVisitOrder t rp →
      ∃ r, r ≠ [] ∧ x = rp ++ r := by
  induction t using TgtDir.inductionOn_tgt with
  | h fs sd ih =>
    intro rp x hx
    rw [cleanupVisitOrder_eq] at hx
    rcases List.mem_append.mp hx with h1 | h1
    · obtain ⟨c, hc, hx'⟩ := (mem_cleanupVisitOrderList sd rp x).mp h1
      obtain ⟨r, _, heq⟩ := ih c hc (rp ++ [c.1]) x hx'
      exact ⟨c.1 :: r, by simp, by simp [heq]⟩
    · obtain ⟨c, hc, heq⟩ := List.mem_map.mp h1
      exact ⟨[c.1], by simp, heq.symm⟩

theorem cleanupVisitOrderList_shape (sd : List (String × TgtDir)) (rp : RPath)
    (x : RPath) (hx : x ∈ cleanupVisitOrderList sd rp) :
    ∃ c ∈ sd, ∃ r, x = rp ++ [c.1] ++ r := by
  obtain ⟨c, hc, hx'⟩ := (mem_cleanupVisitOrderList sd rp x).mp hx
  obtain ⟨r, _, heq⟩ := cleanupVisitOrder_shape c.2 (rp ++ [c.1]) x hx'
  exact ⟨c, hc, r, heq⟩

theorem pairwise_rel_all {α : Type} (R : α → α → Prop) (h : ∀ a b, R a b) :
    ∀ l : List α, l.Pairwise R := by
  intro l
  induction l with
  | nil => exact List.Pairwise.nil
  | cons a l ih => exact List.Pairwise.cons (fun b _ => h a b) ih

theorem cleanupVisitOrderList_pairwise (sd : List (String × TgtDir)) (rp : RPath)
    (hnodup : (sd.map Prod.fst).Nodup)
    (hlist : ∀ c ∈ sd, c.2.nodupNames = true)
    (ih : ∀ c ∈ sd, ∀ q, c.2.nodupNames = true →
      List.Pairwise (fun a b => strictUnder a b = false)
        (cleanupVisitOrder c.2 q)) :
    List.Pairwise (fun a b => strictUnder a b = false)
      (cleanupVisitOrderList sd rp) := by
  induction sd with
  | nil => simp [cleanupVisitOrderList_nil]
  | cons c rest ihl =>
    obtain ⟨n, d⟩ := c
    rw [cleanupVisitOrderList_cons]
    apply List.pairwise_append.mpr
    simp only [List.map_cons, List.nodup_cons] at hnodup
    refine ⟨?_, ?_, ?_⟩
    · exact ih (n, d) (by simp) (rp ++ [n]) (hlist (n, d) (by simp))
    · apply ihl hnodup.2
      · intro c hc
        exact hlist c (List.mem_cons_of_mem _ hc)
      · intro c hc q hq
        exact ih c (List.mem_cons_of_mem _ hc) q hq
    · intro x hx y hy
      obtain ⟨rxs, _, hrx⟩ := cleanupVisitOrder_shape d (rp ++ [n]) x hx
      obtain ⟨c', hc', ry, hry⟩ := cleanupVisitOrderList_shape rest rp y hy
      by_contra hcon
      rw [Bool.not_eq_false] at hcon
      obtain ⟨r, hr, heq⟩ := (strictUnder_iff _ _).mp hcon
      rw [hrx, hry] at heq
      have h2 : rp ++ ([c'.1] ++ ry) = rp ++ ([n] ++ (rxs ++ r)) := by
        simpa [List.append_assoc] using heq
      have h3 : [c'.1] ++ ry = [n] ++ (rxs ++ r) := List.append_cancel_left h2
      have h4 : c'.1 = n := by
        simpa using congrArg (fun l => l.headI) h3
      exact hnodup.1 (h4 ▸ List.mem_map_of_mem Prod.fst hc')

theorem cleanupVisitOrder_pairwise (t : TgtDir) :
    ∀ rp, t.nodupNames = true →
      List.Pairwise (fun a b => strictUnder a b = false)
        (cleanupVisitOrder t rp) := by
  induction t using TgtDir.inductionOn_tgt with
  | h fs sd ih =>
    intro rp hnd
    rw [TgtDir.nodupNames_mk_tgt] at hnd
    simp only [Bool.and_eq_true, decide_eq_true_eq] at hnd
    obtain ⟨hnodup, hlist⟩ := hnd
    rw [TgtDir.nodupNamesList_iff_tgt] at hlist
    rw [cleanupVisitOrder_eq]
    apply List.pairwise_append.mpr
    refine ⟨?_, ?_, ?_⟩
    · exact cleanupVisitOrderList_pairwise sd rp hnodup hlist ih
    · rw [List.pairwise_map]
      apply pairwise_rel_all
      intro a b
      apply strictUnder_false_of_le
      simp
    · intro x hx y hy
      obtain ⟨c, hc, r, hrx⟩ := cleanupVisitOrderList_shape sd rp x hx
      obtain ⟨c', hc', hy'⟩ := List.mem_map.mp hy
      apply strictUnder_false_of_le
      rw [hrx, ← hy']
      simp

/-- C5: with a working `rmdir`, a target directory still present after the
file-deletion phase whose relative path is absent from the source directory
set is removed by reconciliation exactly when it is empty at the moment the
bottom-up walk visits it (its own subtree having been cleaned first); when
non-empty at that moment it is kept, never force-deleted.  And the walk's
removal-candidate order is bottom-up: no directory path is considered before
any of its descendants. -/
theorem dir_removal_iff_empty_bottom_up
    (env : FsEnv) (S : SrcDir) (T : TgtDir) (st : Stats)
    (henv : ∀ q, env.rmdirFails q = false)
    (hnd : T.nodupNames = true) :
    (∀ (p : RPath) (c : TgtDir), p ≠ [] → p ∉ sourceDirsOf S →
      ((cleanup_files env (sourceFilesOf S) T [] st).1).subtreeAt p = some c →
      (((cleanup_target env S T st).1).dirMem p = false ↔
        ((cleanup_dirs env (sourceDirsOf S) c p Stats.zero).1).isEmptyNode = true)) ∧
    List.Pairwise (fun a b => strictUnder a b = false)
      (cleanupVisitOrder (cleanup_files env (sourceFilesOf S) T [] st).1 []) := by
  have htgt : (cleanup_target env S T st).1 =
      (cleanup_dirs env (sourceDirsOf S)
        (cleanup_files env (sourceFilesOf S) T [] st).1 []
        (cleanup_files env (sourceFilesOf S) T [] st).2).1 := rfl
  have hndA : ((cleanup_files env (sourceFilesOf S) T [] st).1).nodupNames = true :=
    cleanup_files_nodup env (sourceFilesOf S) T [] st hnd
  constructor
  · intro p c hp hpnot hsub
    have hiff := cleanup_dirs_dirMem_iff env (sourceDirsOf S) henv p
      ((cleanup_files env (sourceFilesOf S) T [] st).1) []
      ((cleanup_files env (sourceFilesOf S) T [] st).2) c hp hndA hsub
    rw [List.nil_append] at hiff
    rw [htgt]
    constructor
    · intro hfalse
      cases hx : ((cleanup_dirs env (sourceDirsOf S) c p Stats.zero).1).isEmptyNode with
      | true => rfl
      | false =>
        have hdm := hiff.mpr (Or.inr hx)
        rw [hfalse] at hdm
        exact absurd hdm (by simp)
    · intro hempty
      cases hdm : ((cleanup_dirs env (sourceDirsOf S)
          (cleanup_files env (sourceFilesOf S) T [] st).1 []
          (cleanup_files env (sourceFilesOf S) T [] st).2).1).dirMem p with
      | false => rfl
      | true =>
        rcases hiff.mp hdm with h1 | h1
        · exact absurd h1 hpnot
        · rw [hempty] at h1
          exact absurd h1 (by simp)
  · exact cleanupVisitOrder_pairwise
      ((cleanup_files env (sourceFilesOf S) T [] st).1) [] hndA

/-- Witness for C5: empty source, target holding one empty extra directory. -/
theorem dir_removal_iff_empty_bottom_up_witness :
    (∀ q : RPath, FsEnv.clean.rmdirFails q = false) ∧
    (TgtDir.mk [] [("a", TgtDir.mk [] [])]).nodupNames = true ∧
    ((∀ (p : RPath) (c : TgtDir), p ≠ [] → p ∉ sourceDirsOf (SrcDir.mk 0 [] []) →
      ((cleanup_files FsEnv.clean (sourceFilesOf (SrcDir.mk 0 [] []))
        (TgtDir.mk [] [("a", TgtDir.mk [] [])]) [] Stats.zero).1).subtreeAt p = some c →
      (((cleanup_target FsEnv.clean (SrcDir.mk 0 [] [])
          (TgtDir.mk [] [("a", TgtDir.mk [] [])]) Stats.zero).1).dirMem p = false ↔
        ((cleanup_dirs FsEnv.clean (sourceDirsOf (SrcDir.mk 0 [] [])) c p
          Stats.zero).1).isEmptyNode = true)) ∧
    List.Pairwise (fun a b => strictUnder a b = false)
      (cleanupVisitOrder (cleanup_files FsEnv.clean (sourceFilesOf (SrcDir.mk 0 [] []))
        (TgtDir.mk [] [("a", TgtDir.mk [] [])]) [] Stats.zero).1 [])) :=
  ⟨fun _ => rfl,
   by simp [TgtDir.nodupNames, TgtDir.nodupNamesList],
   dir_removal_iff_empty_bottom_up FsEnv.clean (SrcDir.mk 0 [] [])
     (TgtDir.mk [] [("a", TgtDir.mk [] [])]) Stats.zero (fun _ => rfl)
     (by simp [TgtDir.nodupNames, TgtDir.nodupNamesList])⟩
